import Mathlib

/-!
# `Items` of remove-files-webpack-plugin (`src/items.js`)

A shallow embedding of the class `Items`: its two lists, the two-pass pruning
`cropUnnecessaryItems()` and the cosmetic `trimRoot(root)`.

* A JavaScript string is the list of its characters. The code never looks
  inside a character; the only characters the two regular expressions tell
  apart are the four line terminators, which are single code units.
* The collaborators outside the class (`path.resolve`, `path.dirname`,
  `fs.statSync`) are the fields of a `Host`; a stat of a missing path throws,
  which is `none` here.
* The two regular expressions are executed by a small matcher for exactly the
  two pattern shapes the code builds, with the `m` flag and without the `s` flag.
* A method call yields a `Run`: the completion (normal or thrown), the instance
  after the call and the paths given to `fs.statSync`, in call order.
-/

namespace RemoveFiles

/-- A JavaScript string value. -/
abbrev JSString := List Char

/-- The part of `fs.Stats` the code looks at: `stat.isFile()`. -/
structure Stats where
  isFile : Bool
deriving DecidableEq, Repr

/-- The error `fs.statSync` throws for a path that does not exist. -/
structure StatError where
  path : JSString
deriving DecidableEq, Repr

/-- The environment of the class: Node's `path` module and the filesystem. -/
structure Host where
  /-- The function `path.resolve` applied to one argument. -/
  resolve : JSString → JSString
  /-- The function `path.dirname`. -/
  dirname : JSString → JSString
  /-- The function `fs.statSync`; `none` when it throws because the path is missing. -/
  statSync : JSString → Option Stats

/-- The fields `_directories` and `_files` of an `Items` instance. -/
structure Items where
  directories : List JSString
  files : List JSString
deriving DecidableEq, Repr

/-- The instance `new Items()` (constructor, lines 19-29). -/
def Items.new : Items := { directories := [], files := [] }

/-- The getter `get directories()` (lines 35-37). -/
def Items.get_directories (self : Items) : List JSString := self.directories

/-- The setter `set directories(value)` (lines 45-47). -/
def Items.set_directories (self : Items) (value : List JSString) : Items :=
  { self with directories := value }

/-- The getter `get files()` (lines 53-55). -/
def Items.get_files (self : Items) : List JSString := self.files

/-- The setter `set files(value)` (lines 63-65). -/
def Items.set_files (self : Items) (value : List JSString) : Items :=
  { self with files := value }

/-! ## Regular expressions -/

/-- The ECMAScript production LineTerminator: LF, CR, LS, PS. -/
def isLineTerminator (c : Char) : Bool :=
  c.toNat = 0x0A || c.toNat = 0x0D || c.toNat = 0x2028 || c.toNat = 0x2029

/-- The assertion `^` under the `m` flag; `prev` is the character before the
current position, `none` at index 0. -/
def lineStart (prev : Option Char) : Bool :=
  match prev with
  | none => true
  | some c => isLineTerminator c

/-- Matching the characters of `lit` one by one at the head of `s`; the text
after them when they all match. -/
def matchLiteral : JSString → JSString → Option JSString
  | [], s => some s
  | _ :: _, [] => none
  | a :: as, c :: cs => if a = c then matchLiteral as cs else none

/-- The pattern `(.+)` at the head of `s` with nothing after it in the pattern:
one character that is not a line terminator is needed (no `s` flag). -/
def matchDotPlus (s : JSString) : Bool :=
  match s with
  | [] => false
  | c :: _ => !isLineTerminator c

/-- One attempt of `(^lit)` at a position. -/
def regexpForFileAt (lit : JSString) (prev : Option Char) (s : JSString) : Bool :=
  lineStart prev && (matchLiteral lit s).isSome

/-- One attempt of `(^lit)(.+)` at a position. -/
def regexpForFolderAt (lit : JSString) (prev : Option Char) (s : JSString) : Bool :=
  lineStart prev &&
    (match matchLiteral lit s with
     | some rest => matchDotPlus rest
     | none => false)

/-- The search of `RegExp.prototype.test` for a regular expression without the
`g` and `y` flags: the pattern is attempted at index 0, then 1, up to the
length of the string. -/
def regexpTest (attempt : Option Char → JSString → Bool) : Option Char → JSString → Bool
  | prev, [] => attempt prev []
  | prev, c :: cs => attempt prev (c :: cs) || regexpTest attempt (some c) cs

/-- Modelled from the spec: `Utils.escape` (`./utils` is not among the sources)
"neutralizes regular-expression metacharacters before a path is embedded into a
pattern", so `new RegExp("(^" + Utils.escape(p) + ")", "m")` matches the
characters of `p` literally. This is `regexpForFile.test(s)` (line 128, 141). -/
def regexpForFile (itemFirst : JSString) (s : JSString) : Bool :=
  regexpTest (regexpForFileAt itemFirst) none s

/-- Modelled from the spec: as `regexpForFile`, for
`new RegExp("(^" + Utils.escape(p) + ")(.+)", "m")`. This is
`regexpForFolder.test(s)` (line 129, 145). -/
def regexpForFolder (itemFirst : JSString) (s : JSString) : Bool :=
  regexpTest (regexpForFolderAt itemFirst) none s

/-! ## `cropUnnecessaryItems` -/

/-- The method `Set.prototype.add` on the set of marked indexes. The keys `"0"`, `"1"`, ...
of the `for ... in` loops are the natural numbers here. -/
def setAdd (indexes : List Nat) (i : Nat) : List Nat :=
  if i ∈ indexes then indexes else indexes ++ [i]

/-- What a helper leaves behind: its completion and the `fs.statSync` calls so far. -/
structure Scan where
  indexes : Except StatError (List Nat)
  statCalls : List JSString

/-- The inner loop `for (const itemSecond in secondGroup)` (lines 132-149), from
index `i` on; `itemFirst` is the resolved anchor. -/
def scanSecondGroup (h : Host) (itemFirst : JSString) :
    Nat → List JSString → List Nat → List JSString → Scan
  | _, [], indexes, calls => { indexes := .ok indexes, statCalls := calls }
  | i, x :: rest, indexes, calls =>
    let item := h.resolve x
    match h.statSync item with
    | none => { indexes := .error { path := item }, statCalls := calls ++ [item] }
    | some stat =>
      if stat.isFile then
        let newItem := h.dirname item
        if regexpForFile itemFirst newItem then
          scanSecondGroup h itemFirst (i + 1) rest (setAdd indexes i) (calls ++ [item])
        else
          scanSecondGroup h itemFirst (i + 1) rest indexes (calls ++ [item])
      else
        if regexpForFolder itemFirst item then
          scanSecondGroup h itemFirst (i + 1) rest (setAdd indexes i) (calls ++ [item])
        else
          scanSecondGroup h itemFirst (i + 1) rest indexes (calls ++ [item])

/-- The helper `addToUnnecessaryIndexes(firstGroup, secondGroup, indexes)`
(lines 122-151). -/
def addToUnnecessaryIndexes (h : Host) :
    List JSString → List JSString → List Nat → List JSString → Scan
  | [], _, indexes, calls => { indexes := .ok indexes, statCalls := calls }
  | itemFirst :: more, secondGroup, indexes, calls =>
    match scanSecondGroup h (h.resolve itemFirst) 0 secondGroup indexes calls with
    | { indexes := .error e, statCalls := calls' } => { indexes := .error e, statCalls := calls' }
    | { indexes := .ok indexes', statCalls := calls' } =>
      addToUnnecessaryIndexes h more secondGroup indexes' calls'

/-- The helper `addToRightGroup(rightGroup, itemsGroup, indexes)` (lines 158-164),
from index `i` on. -/
def addToRightGroupFrom : Nat → List JSString → List JSString → List Nat → List JSString
  | _, rightGroup, [], _ => rightGroup
  | i, rightGroup, x :: rest, indexes =>
    if i ∈ indexes then addToRightGroupFrom (i + 1) rightGroup rest indexes
    else addToRightGroupFrom (i + 1) (rightGroup ++ [x]) rest indexes

/-- The helper `addToRightGroup(rightGroup, itemsGroup, indexes)`. -/
def addToRightGroup (rightGroup itemsGroup : List JSString) (indexes : List Nat) :
    List JSString :=
  addToRightGroupFrom 0 rightGroup itemsGroup indexes

/-- A method call: how it completed, the instance afterwards, and the paths
passed to `fs.statSync` during the call. -/
structure Run where
  completion : Except StatError Unit
  self : Items
  statCalls : List JSString

/-- The method `cropUnnecessaryItems()` (lines 105-176). -/
def cropUnnecessaryItems (h : Host) (self : Items) : Run :=
  if self.directories.length = 0 then
    { completion := .ok (), self := self, statCalls := [] }
  else
    let rightItems := Items.new
    let unnecessaryIndexes : List Nat := []
    match addToUnnecessaryIndexes h self.directories self.directories unnecessaryIndexes [] with
    | { indexes := .error e, statCalls := calls } =>
      { completion := .error e, self := self, statCalls := calls }
    | { indexes := .ok unnecessaryIndexes, statCalls := calls } =>
      let rightItems :=
        { rightItems with
          directories := addToRightGroup rightItems.directories self.directories unnecessaryIndexes }
      let unnecessaryIndexes : List Nat := []
      match addToUnnecessaryIndexes h rightItems.directories self.files unnecessaryIndexes calls with
      | { indexes := .error e, statCalls := calls } =>
        { completion := .error e, self := self, statCalls := calls }
      | { indexes := .ok unnecessaryIndexes, statCalls := calls } =>
        let rightItems :=
          { rightItems with
            files := addToRightGroup rightItems.files self.files unnecessaryIndexes }
        { completion := .ok (),
          self := { directories := rightItems.directories, files := rightItems.files },
          statCalls := calls }

/-! ## The pruning as a filter -/

/-- The body of the inner loop for one candidate `x` that exists (lines 133-148):
whether the anchor, already resolved, gets the index of `x` marked. -/
def marksResolved (h : Host) (itemFirst x : JSString) : Bool :=
  match h.statSync (h.resolve x) with
  | none => false
  | some stat =>
    if stat.isFile then regexpForFile itemFirst (h.dirname (h.resolve x))
    else regexpForFolder itemFirst (h.resolve x)

/-- Whether the anchor `d` gets the candidate `x` marked. -/
def marks (h : Host) (d x : JSString) : Bool :=
  marksResolved h (h.resolve d) x

/-- The candidates that none of the anchors marks, in their order. -/
def survivors (h : Host) (anchors candidates : List JSString) : List JSString :=
  candidates.filter (fun x => !anchors.any (fun d => marks h d x))

/-- The instance a completed `cropUnnecessaryItems()` leaves, as two filters. -/
def pruned (h : Host) (self : Items) : Items :=
  { directories := survivors h self.directories self.directories,
    files := survivors h (survivors h self.directories self.directories) self.files }

/-- The path `p` exists: `fs.statSync` of its resolved form does not throw. -/
def pathExists (h : Host) (p : JSString) : Prop :=
  (h.statSync (h.resolve p)).isSome = true

instance (h : Host) (p : JSString) : Decidable (pathExists h p) := by
  unfold pathExists; infer_instance

/-- The path `p` exists and `stat.isFile()` is true for it (the branch of line 138). -/
def isRegularFile (h : Host) (p : JSString) : Bool :=
  match h.statSync (h.resolve p) with
  | some stat => stat.isFile
  | none => false

/-- The path `p` exists and `stat.isFile()` is false for it (the branch of line 144). -/
def isDirectory (h : Host) (p : JSString) : Bool :=
  match h.statSync (h.resolve p) with
  | some stat => !stat.isFile
  | none => false

/-! ## `trimRoot` -/

/-- The method `String.prototype.indexOf(root)`: the first index at which
`root` occurs in `value`, counted from `i`; `-1` when there is none. -/
def indexOfFrom (root : JSString) : Int → JSString → Int
  | i, [] => if root = [] then i else -1
  | i, c :: cs => if (matchLiteral root (c :: cs)).isSome then i else indexOfFrom root (i + 1) cs

/-- The method `value.indexOf(root)`. -/
def indexOf (value root : JSString) : Int := indexOfFrom root 0 value

/-- The method `value.replace(root, '')` with a string pattern: the first
occurrence of `root` is replaced by the empty string. -/
def replaceFirstWithEmpty (root : JSString) : JSString → JSString
  | [] => []
  | c :: cs =>
    match matchLiteral root (c :: cs) with
    | some rest => rest
    | none => c :: replaceFirstWithEmpty root cs

/-- The arrow function `method` of `trimRoot` (lines 188-194). -/
def trimRoot.method (root : JSString) (value : JSString) : JSString :=
  if indexOf value root = 0 then replaceFirstWithEmpty root value else value

/-- The method `trimRoot(root)` (lines 187-198). -/
def trimRoot (root : JSString) (self : Items) : Items :=
  { directories := self.directories.map (trimRoot.method root),
    files := self.files.map (trimRoot.method root) }

/-! ## Hosts for the scenarios -/

/-- The parent of a normalised absolute POSIX path, as `path.dirname` gives it
on such a path: the text before the last `/`, and `/` for a child of the root. -/
def posixDirname (p : JSString) : JSString :=
  let parent := ((p.reverse.dropWhile (fun c => c != '/')).drop 1).reverse
  if parent = [] then ['/'] else parent

/-- A POSIX host whose working paths are already absolute and normalised
(`path.resolve` returns them as they are), over a filesystem given by a table
of the existing paths and whether each is a regular file. -/
def posixHost (table : List (String × Bool)) : Host :=
  { resolve := fun p => p,
    dirname := posixDirname,
    statSync := fun p =>
      (table.find? (fun e => e.1.toList = p)).map (fun e => { isFile := e.2 }) }

/-- Scenario A: the four directories and the four regular files on disk. -/
def scenarioHost : Host :=
  posixHost
    [("/d/styles/css", false), ("/d/js/scripts", false), ("/d/styles", false), ("/t", false),
     ("/d/styles/popup.css", true), ("/d/styles/popup.css.map", true),
     ("/d/manifest.json", true), ("/t.txt", true)]

/-- Scenario A: the instance before the call. -/
def scenarioItems : Items :=
  { directories :=
      ["/d/styles/css".toList, "/d/js/scripts".toList, "/d/styles".toList, "/t".toList]
    files :=
      ["/d/styles/popup.css".toList, "/d/styles/popup.css.map".toList,
       "/d/manifest.json".toList, "/t.txt".toList] }

/-- The ancestor relation of the glossary: the resolved string of `b` begins with
the resolved string of `a`, goes on, and a path boundary follows `a` in it: `a`
ends with the separator (a root) or the next character of `b` is the separator. -/
def isStrictAncestor (a b : JSString) : Bool :=
  a.isPrefixOf b && decide (a.length < b.length) &&
    (a.getLast? == some '/' || (b.drop a.length).head? == some '/')

/-- The string `a` is a literal prefix of `b` and `b` is longer. -/
def isStrictPrefix (a b : JSString) : Bool :=
  a.isPrefixOf b && decide (a.length < b.length)

/-- The listed path `x`, resolved, and its parent path hold no line terminator. -/
def plainPath (h : Host) (x : JSString) : Prop :=
  (∀ c ∈ h.resolve x, isLineTerminator c = false) ∧
  (∀ c ∈ h.dirname (h.resolve x), isLineTerminator c = false)

instance (h : Host) (x : JSString) : Decidable (plainPath h x) := by
  unfold plainPath; infer_instance

/-- The root and a directory in it whose name begins with a line feed. -/
def rootHost : Host :=
  posixHost [("/", false), ("/\nx", false)]

/-- The directory `/a`, and the directory `/b\n/a/c` below a directory whose
name ends with a line feed. -/
def lineFeedHost : Host :=
  posixHost [("/a", false), ("/b\n/a/c", false)]

/-- The sibling directories `/data/log` and `/data/logs`. -/
def siblingHost : Host :=
  posixHost [("/data/log", false), ("/data/logs", false)]

/-- The character before the position that follows `pre`, in a text that comes
after `prev`. -/
def charBefore (prev : Option Char) (pre : JSString) : Option Char :=
  match pre.getLast? with
  | some c => some c
  | none => prev

/-- The root, the regular file `/\nfoo` in it and the directory `/\nfoobar`. -/
def mixedHost : Host :=
  posixHost [("/", false), ("/\nfoo", true), ("/\nfoobar", false)]

/-! ## The two helpers -/

theorem mem_setAdd (indexes : List Nat) (i j : Nat) :
    j ∈ setAdd indexes i ↔ j ∈ indexes ∨ j = i := by
  unfold setAdd
  split
  · constructor
    · intro hj; exact Or.inl hj
    · rintro (hj | rfl)
      · exact hj
      · assumption
  · simp

theorem scanSecondGroup_ok (h : Host) (a : JSString) :
    ∀ (sg : List JSString) (i : Nat) (idx : List Nat) (calls : List JSString),
      (∀ x ∈ sg, pathExists h x) →
      ∃ idx', scanSecondGroup h a i sg idx calls
          = { indexes := .ok idx', statCalls := calls ++ sg.map h.resolve } ∧
        ∀ j, j ∈ idx' ↔ j ∈ idx ∨ ∃ x, (j, x) ∈ sg.enumFrom i ∧ marksResolved h a x = true := by
  intro sg
  induction sg with
  | nil => intro i idx calls _; exact ⟨idx, by simp [scanSecondGroup], by simp⟩
  | cons x rest ih =>
    intro i idx calls hall
    have hx : pathExists h x := hall x (List.mem_cons_self _ _)
    have hrest : ∀ y ∈ rest, pathExists h y := fun y hy => hall y (List.mem_cons_of_mem _ hy)
    unfold pathExists at hx
    obtain ⟨stat, hstat⟩ := Option.isSome_iff_exists.mp hx
    by_cases hm : marksResolved h a x = true
    · obtain ⟨idx', heq, hmem⟩ := ih (i + 1) (setAdd idx i) (calls ++ [h.resolve x]) hrest
      refine ⟨idx', ?_, ?_⟩
      · have hm' := hm
        simp only [marksResolved, hstat] at hm'
        rw [scanSecondGroup]
        simp only [hstat]
        by_cases hf : stat.isFile = true
        · simp only [hf, if_true] at hm' ⊢
          simp [hm', heq]
        · simp only [hf] at hm' ⊢
          simp at hm'
          simp [hm', heq]
      · intro j
        rw [hmem, mem_setAdd]
        simp only [List.enumFrom_cons, List.mem_cons, Prod.mk.injEq]
        constructor
        · rintro ((hj | rfl) | ⟨y, hy, hmy⟩)
          · exact Or.inl hj
          · exact Or.inr ⟨x, Or.inl ⟨rfl, rfl⟩, hm⟩
          · exact Or.inr ⟨y, Or.inr hy, hmy⟩
        · rintro (hj | ⟨y, (⟨rfl, rfl⟩ | hy), hmy⟩)
          · exact Or.inl (Or.inl hj)
          · exact Or.inl (Or.inr rfl)
          · exact Or.inr ⟨y, hy, hmy⟩
    · obtain ⟨idx', heq, hmem⟩ := ih (i + 1) idx (calls ++ [h.resolve x]) hrest
      refine ⟨idx', ?_, ?_⟩
      · have hm' := hm
        simp only [marksResolved, hstat] at hm'
        rw [scanSecondGroup]
        simp only [hstat]
        by_cases hf : stat.isFile = true
        · simp only [hf, if_true] at hm' ⊢
          simp [hm', heq]
        · simp only [hf] at hm' ⊢
          simp at hm'
          simp [hm', heq]
      · intro j
        rw [hmem]
        simp only [List.enumFrom_cons, List.mem_cons, Prod.mk.injEq]
        constructor
        · rintro (hj | ⟨y, hy, hmy⟩)
          · exact Or.inl hj
          · exact Or.inr ⟨y, Or.inr hy, hmy⟩
        · rintro (hj | ⟨y, (⟨rfl, rfl⟩ | hy), hmy⟩)
          · exact Or.inl hj
          · exact absurd hmy hm
          · exact Or.inr ⟨y, hy, hmy⟩

theorem scanSecondGroup_error (h : Host) (a : JSString) :
    ∀ (sg : List JSString) (i : Nat) (idx : List Nat) (calls : List JSString),
      (∃ x ∈ sg, ¬ pathExists h x) →
      ∃ e, (scanSecondGroup h a i sg idx calls).indexes = .error e ∧
        h.statSync e.path = none ∧ e.path ∈ sg.map h.resolve := by
  intro sg
  induction sg with
  | nil => intro i idx calls hex; obtain ⟨x, hx, _⟩ := hex; cases hx
  | cons x rest ih =>
    intro i idx calls hex
    cases hstat : h.statSync (h.resolve x) with
    | none =>
      refine ⟨{ path := h.resolve x }, ?_, hstat, by simp⟩
      rw [scanSecondGroup]
      simp only [hstat]
    | some stat =>
      have hrest : ∃ y ∈ rest, ¬ pathExists h y := by
        obtain ⟨y, hy, hny⟩ := hex
        rcases List.mem_cons.mp hy with rfl | hy'
        · exact absurd (by simp [pathExists, hstat]) hny
        · exact ⟨y, hy', hny⟩
      have key : ∀ idx₁, ∃ e, (scanSecondGroup h a (i + 1) rest idx₁ (calls ++ [h.resolve x])).indexes
          = .error e ∧ h.statSync e.path = none ∧ e.path ∈ (x :: rest).map h.resolve := by
        intro idx₁
        obtain ⟨e, he, hnone, hmem⟩ := ih (i + 1) idx₁ (calls ++ [h.resolve x]) hrest
        exact ⟨e, he, hnone, by simp only [List.map_cons]; exact List.mem_cons_of_mem _ hmem⟩
      rw [scanSecondGroup]
      simp only [hstat]
      split <;> split <;> exact key _

theorem addToUnnecessaryIndexes_ok (h : Host) (sg : List JSString)
    (hall : ∀ x ∈ sg, pathExists h x) :
    ∀ (fg : List JSString) (idx : List Nat) (calls : List JSString),
      ∃ idx', addToUnnecessaryIndexes h fg sg idx calls
          = { indexes := .ok idx',
              statCalls := calls ++ (fg.map (fun _ => sg.map h.resolve)).flatten } ∧
        ∀ j, j ∈ idx' ↔
          j ∈ idx ∨ ∃ x, (j, x) ∈ sg.enumFrom 0 ∧ ∃ d ∈ fg, marks h d x = true := by
  intro fg
  induction fg with
  | nil => intro idx calls; exact ⟨idx, by simp [addToUnnecessaryIndexes], by simp⟩
  | cons d more ih =>
    intro idx calls
    obtain ⟨idx₁, heq₁, hmem₁⟩ := scanSecondGroup_ok h (h.resolve d) sg 0 idx calls hall
    obtain ⟨idx', heq, hmem⟩ := ih idx₁ (calls ++ sg.map h.resolve)
    refine ⟨idx', ?_, ?_⟩
    · rw [addToUnnecessaryIndexes, heq₁]
      simp only [heq, List.map_cons, List.flatten_cons, List.append_assoc]
    · intro j
      rw [hmem, hmem₁]
      constructor
      · rintro ((hj | ⟨x, hx, hm⟩) | ⟨x, hx, d', hd', hm⟩)
        · exact Or.inl hj
        · exact Or.inr ⟨x, hx, d, List.mem_cons_self _ _, hm⟩
        · exact Or.inr ⟨x, hx, d', List.mem_cons_of_mem _ hd', hm⟩
      · rintro (hj | ⟨x, hx, d', hd', hm⟩)
        · exact Or.inl (Or.inl hj)
        · rcases List.mem_cons.mp hd' with rfl | hd''
          · exact Or.inl (Or.inr ⟨x, hx, hm⟩)
          · exact Or.inr ⟨x, hx, d', hd'', hm⟩

theorem addToUnnecessaryIndexes_error (h : Host) (fg sg : List JSString)
    (idx : List Nat) (calls : List JSString) (hfg : fg ≠ [])
    (hex : ∃ x ∈ sg, ¬ pathExists h x) :
    ∃ e, (addToUnnecessaryIndexes h fg sg idx calls).indexes = .error e ∧
      h.statSync e.path = none ∧ e.path ∈ sg.map h.resolve := by
  cases fg with
  | nil => exact absurd rfl hfg
  | cons d more =>
    obtain ⟨e, he, hnone, hmem⟩ := scanSecondGroup_error h (h.resolve d) sg 0 idx calls hex
    refine ⟨e, ?_, hnone, hmem⟩
    rw [addToUnnecessaryIndexes]
    cases hs : scanSecondGroup h (h.resolve d) 0 sg idx calls with
    | mk r c =>
      rw [hs] at he
      simp only at he
      subst he
      rfl

theorem addToRightGroupFrom_eq (P : JSString → Bool) (idx : List Nat) :
    ∀ (items : List JSString) (i : Nat) (rg : List JSString),
      (∀ j x, (j, x) ∈ items.enumFrom i → (j ∈ idx ↔ P x = true)) →
      addToRightGroupFrom i rg items idx = rg ++ items.filter (fun x => !P x) := by
  intro items
  induction items with
  | nil => intro i rg _; simp [addToRightGroupFrom]
  | cons x rest ih =>
    intro i rg hP
    have hx : i ∈ idx ↔ P x = true := hP i x (by simp)
    have hrest : ∀ j y, (j, y) ∈ rest.enumFrom (i + 1) → (j ∈ idx ↔ P y = true) :=
      fun j y hj => hP j y (by simp [hj])
    rw [addToRightGroupFrom]
    by_cases hi : i ∈ idx
    · have hpx : P x = true := hx.mp hi
      rw [if_pos hi, ih (i + 1) rg hrest]
      simp [List.filter_cons, hpx]
    · have hpx : P x = false := by
        cases hp : P x with
        | false => rfl
        | true => exact absurd (hx.mpr hp) hi
      rw [if_neg hi, ih (i + 1) (rg ++ [x]) hrest]
      simp [List.filter_cons, hpx]

theorem enumFrom_unique {i j : Nat} {x y : JSString} {l : List JSString}
    (hx : (j, x) ∈ l.enumFrom i) (hy : (j, y) ∈ l.enumFrom i) : x = y := by
  rw [List.mk_mem_enumFrom_iff_le_and_getElem?_sub] at hx hy
  have := hx.2.symm.trans hy.2
  exact Option.some.inj this

theorem survivors_nil_anchors (h : Host) (sg : List JSString) : survivors h [] sg = sg := by
  simp [survivors]

/-- One pass, `addToUnnecessaryIndexes` on an empty set followed by
`addToRightGroup` into an empty list, is the filter `survivors`. -/
theorem pass_eq (h : Host) (fg sg : List JSString) (calls : List JSString)
    (hall : fg = [] ∨ ∀ x ∈ sg, pathExists h x) :
    ∃ idx', addToUnnecessaryIndexes h fg sg [] calls
        = { indexes := .ok idx',
            statCalls := calls ++ (fg.map (fun _ => sg.map h.resolve)).flatten } ∧
      addToRightGroup [] sg idx' = survivors h fg sg := by
  rcases hall with rfl | hall
  · refine ⟨[], by simp [addToUnnecessaryIndexes], ?_⟩
    rw [survivors_nil_anchors, addToRightGroup,
      addToRightGroupFrom_eq (fun _ => false) [] sg 0 [] (by simp)]
    simp
  · obtain ⟨idx', heq, hmem⟩ := addToUnnecessaryIndexes_ok h sg hall fg [] calls
    refine ⟨idx', heq, ?_⟩
    rw [addToRightGroup,
      addToRightGroupFrom_eq (fun x => fg.any (fun d => marks h d x)) idx' sg 0 []]
    · simp [survivors]
    · intro j x hjx
      rw [hmem]
      simp only [List.not_mem_nil, false_or, List.any_eq_true]
      constructor
      · rintro ⟨y, hy, d, hd, hm⟩
        rw [enumFrom_unique hjx hy]
        exact ⟨d, hd, hm⟩
      · rintro ⟨d, hd, hm⟩
        exact ⟨x, hjx, d, hd, hm⟩

theorem crop_nil (h : Host) (files : List JSString) :
    cropUnnecessaryItems h { directories := [], files := files }
      = { completion := .ok (), self := { directories := [], files := files }, statCalls := [] } := by
  simp [cropUnnecessaryItems]

/-- A call on existing paths completes normally and leaves `pruned`. -/
theorem crop_ok (h : Host) (self : Items)
    (hdirs : ∀ x ∈ self.directories, pathExists h x)
    (hfiles : survivors h self.directories self.directories = [] ∨
      ∀ x ∈ self.files, pathExists h x) :
    cropUnnecessaryItems h self
      = { completion := .ok (), self := pruned h self,
          statCalls :=
            (self.directories.map (fun _ => self.directories.map h.resolve)).flatten ++
            ((survivors h self.directories self.directories).map
              (fun _ => self.files.map h.resolve)).flatten } := by
  obtain ⟨dirs, files⟩ := self
  cases dirs with
  | nil => simp [crop_nil, pruned, survivors]
  | cons d ds =>
    obtain ⟨idx₁, heq₁, hright₁⟩ := pass_eq h (d :: ds) (d :: ds) [] (Or.inr hdirs)
    obtain ⟨idx₂, heq₂, hright₂⟩ := pass_eq h (survivors h (d :: ds) (d :: ds)) files
      ((d :: ds).map (fun _ => (d :: ds).map h.resolve)).flatten hfiles
    simp only [List.nil_append] at heq₁
    simp only [cropUnnecessaryItems, List.length_cons, Nat.add_one_ne_zero, if_false,
      Items.new, heq₁, hright₁, heq₂, hright₂, pruned, List.nil_append]

/-- A missing directory entry makes pass 1 throw. -/
theorem crop_error_directories (h : Host) (self : Items)
    (hex : ∃ x ∈ self.directories, ¬ pathExists h x) :
    ∃ e, cropUnnecessaryItems h self
        = { completion := .error e, self := self,
            statCalls := (cropUnnecessaryItems h self).statCalls } ∧
      h.statSync e.path = none ∧ e.path ∈ self.directories.map h.resolve := by
  obtain ⟨dirs, files⟩ := self
  cases dirs with
  | nil => obtain ⟨x, hx, _⟩ := hex; cases hx
  | cons d ds =>
    obtain ⟨e, he, hnone, hmem⟩ :=
      addToUnnecessaryIndexes_error h (d :: ds) (d :: ds) [] [] (by simp) hex
    refine ⟨e, ?_, hnone, hmem⟩
    cases hs : addToUnnecessaryIndexes h (d :: ds) (d :: ds) [] [] with
    | mk r c =>
      rw [hs] at he
      simp only at he
      subst he
      simp only [cropUnnecessaryItems, List.length_cons, Nat.add_one_ne_zero, if_false, hs]

/-- A missing file entry makes pass 2 throw when pass 1 left an anchor. -/
theorem crop_error_files (h : Host) (self : Items)
    (hdirs : ∀ x ∈ self.directories, pathExists h x)
    (hsurv : survivors h self.directories self.directories ≠ [])
    (hex : ∃ x ∈ self.files, ¬ pathExists h x) :
    ∃ e, cropUnnecessaryItems h self
        = { completion := .error e, self := self,
            statCalls := (cropUnnecessaryItems h self).statCalls } ∧
      h.statSync e.path = none ∧ e.path ∈ self.files.map h.resolve := by
  obtain ⟨dirs, files⟩ := self
  cases dirs with
  | nil => simp [survivors] at hsurv
  | cons d ds =>
    obtain ⟨idx₁, heq₁, hright₁⟩ := pass_eq h (d :: ds) (d :: ds) [] (Or.inr hdirs)
    simp only [List.nil_append] at heq₁
    obtain ⟨e, he, hnone, hmem⟩ :=
      addToUnnecessaryIndexes_error h (survivors h (d :: ds) (d :: ds)) files []
        ((d :: ds).map (fun _ => (d :: ds).map h.resolve)).flatten hsurv hex
    refine ⟨e, ?_, hnone, hmem⟩
    cases hs : addToUnnecessaryIndexes h (survivors h (d :: ds) (d :: ds)) files []
        ((d :: ds).map (fun _ => (d :: ds).map h.resolve)).flatten with
    | mk r c =>
      rw [hs] at he
      simp only at he
      subst he
      simp only [cropUnnecessaryItems, List.length_cons, Nat.add_one_ne_zero, if_false,
        Items.new, heq₁, hright₁, hs]

/-- Every call either throws a stat error and leaves the instance as it was, or
completes and leaves `pruned`. -/
theorem crop_cases (h : Host) (self : Items) :
    ((cropUnnecessaryItems h self).completion = .ok () ∧
        (cropUnnecessaryItems h self).self = pruned h self) ∨
    (∃ e, (cropUnnecessaryItems h self).completion = .error e ∧
        (cropUnnecessaryItems h self).self = self ∧ h.statSync e.path = none) := by
  by_cases hdirs : ∀ x ∈ self.directories, pathExists h x
  · by_cases hfiles : survivors h self.directories self.directories = [] ∨
        ∀ x ∈ self.files, pathExists h x
    · left
      rw [crop_ok h self hdirs hfiles]
      exact ⟨rfl, rfl⟩
    · right
      push_neg at hfiles
      obtain ⟨e, he, hnone, _⟩ := crop_error_files h self hdirs hfiles.1 hfiles.2
      exact ⟨e, by rw [he], by rw [he], hnone⟩
  · right
    push_neg at hdirs
    obtain ⟨e, he, hnone, _⟩ := crop_error_directories h self hdirs
    exact ⟨e, by rw [he], by rw [he], hnone⟩

theorem survivors_sublist (h : Host) (anchors sg : List JSString) :
    (survivors h anchors sg).Sublist sg :=
  List.filter_sublist _

theorem mem_survivors (h : Host) (anchors sg : List JSString) (x : JSString) :
    x ∈ survivors h anchors sg ↔ x ∈ sg ∧ ∀ d ∈ anchors, marks h d x = false := by
  simp [survivors]

theorem exists_marks_of_not_mem_survivors (h : Host) (anchors sg : List JSString)
    (x : JSString) (hx : x ∈ sg) (hn : x ∉ survivors h anchors sg) :
    ∃ d ∈ anchors, marks h d x = true := by
  rw [mem_survivors] at hn
  push_neg at hn
  obtain ⟨d, hd, hm⟩ := hn hx
  exact ⟨d, hd, by simpa using hm⟩

theorem pruned_pruned (h : Host) (self : Items) : pruned h (pruned h self) = pruned h self := by
  have hd : survivors h (survivors h self.directories self.directories)
      (survivors h self.directories self.directories)
        = survivors h self.directories self.directories := by
    apply List.filter_eq_self.mpr
    intro x hx
    have hx' := (mem_survivors h _ _ x).mp hx
    simp only [Bool.not_eq_true', List.any_eq_false]
    intro d hd
    have := hx'.2 d ((survivors_sublist h _ _).subset hd)
    simp [this]
  have hf : survivors h (survivors h self.directories self.directories)
      (survivors h (survivors h self.directories self.directories) self.files)
        = survivors h (survivors h self.directories self.directories) self.files := by
    apply List.filter_eq_self.mpr
    intro x hx
    have hx' := (mem_survivors h _ _ x).mp hx
    simp only [Bool.not_eq_true', List.any_eq_false]
    intro d hd
    have := hx'.2 d hd
    simp [this]
  simp only [pruned, hd, hf]

/-! ## The literal matcher and `trimRoot` -/

theorem matchLiteral_eq_some_iff :
    ∀ (lit s rest : JSString), matchLiteral lit s = some rest ↔ s = lit ++ rest := by
  intro lit
  induction lit with
  | nil => intro s rest; simp [matchLiteral, eq_comm]
  | cons a as ih =>
    intro s rest
    cases s with
    | nil => simp [matchLiteral]
    | cons c cs =>
      rw [matchLiteral]
      by_cases hac : a = c
      · subst hac; simp [ih]
      · simp only [if_neg hac, List.cons_append, List.cons.injEq]
        constructor
        · intro hn; cases hn
        · rintro ⟨hca, _⟩; exact absurd hca.symm hac

theorem matchLiteral_isSome_iff (lit s : JSString) :
    (matchLiteral lit s).isSome = true ↔ lit <+: s := by
  rw [Option.isSome_iff_exists]
  constructor
  · rintro ⟨rest, hr⟩
    exact ⟨rest, ((matchLiteral_eq_some_iff lit s rest).mp hr).symm⟩
  · rintro ⟨rest, hr⟩
    exact ⟨rest, (matchLiteral_eq_some_iff lit s rest).mpr hr.symm⟩

theorem indexOfFrom_ne (root : JSString) :
    ∀ (s : JSString) (i j : Int), 0 ≤ j → j < i → indexOfFrom root i s ≠ j := by
  intro s
  induction s with
  | nil =>
    intro i j h0 hji
    rw [indexOfFrom]
    split <;> omega
  | cons c cs ih =>
    intro i j h0 hji
    rw [indexOfFrom]
    split
    · omega
    · exact ih (i + 1) j h0 (by omega)

theorem indexOf_eq_zero_iff (value root : JSString) :
    indexOf value root = 0 ↔ root <+: value := by
  rw [← matchLiteral_isSome_iff]
  unfold indexOf
  cases value with
  | nil =>
    rw [indexOfFrom]
    cases root with
    | nil => simp [matchLiteral]
    | cons a as => simp [matchLiteral]
  | cons c cs =>
    rw [indexOfFrom]
    by_cases hm : (matchLiteral root (c :: cs)).isSome = true
    · simp [hm]
    · rw [if_neg hm]
      exact iff_of_false (indexOfFrom_ne root cs (0 + 1) 0 (le_refl 0) (by omega)) hm

theorem replaceFirstWithEmpty_leading (root value : JSString) (hp : root <+: value) :
    replaceFirstWithEmpty root value = value.drop root.length := by
  obtain ⟨rest, rfl⟩ := hp
  have hm : matchLiteral root (root ++ rest) = some rest :=
    (matchLiteral_eq_some_iff root (root ++ rest) rest).mpr rfl
  cases hv : root ++ rest with
  | nil =>
    have hroot : root = [] := (List.append_eq_nil.mp hv).1
    have hrest : rest = [] := (List.append_eq_nil.mp hv).2
    subst hroot; subst hrest
    simp [replaceFirstWithEmpty]
  | cons c cs =>
    rw [hv] at hm
    rw [replaceFirstWithEmpty, hm, ← hv]
    simp

theorem trimRoot_method_eq (root value : JSString) :
    trimRoot.method root value = if root <+: value then value.drop root.length else value := by
  unfold trimRoot.method
  by_cases hp : root <+: value
  · rw [if_pos ((indexOf_eq_zero_iff value root).mpr hp), if_pos hp,
      replaceFirstWithEmpty_leading root value hp]
  · rw [if_neg (fun h0 => hp ((indexOf_eq_zero_iff value root).mp h0)), if_neg hp]

/-! ## The two regular expressions -/

theorem regexpTest_of_attempt (attempt : Option Char → JSString → Bool) (prev : Option Char)
    (s : JSString) (ha : attempt prev s = true) : regexpTest attempt prev s = true := by
  cases s with
  | nil => rw [regexpTest]; exact ha
  | cons c cs => rw [regexpTest, ha]; rfl

theorem regexpTest_exists (attempt : Option Char → JSString → Bool) :
    ∀ (s : JSString) (prev : Option Char), regexpTest attempt prev s = true →
      ∃ p pre suf, s = pre ++ suf ∧ attempt p suf = true := by
  intro s
  induction s with
  | nil => intro prev ht; rw [regexpTest] at ht; exact ⟨prev, [], [], rfl, ht⟩
  | cons c cs ih =>
    intro prev ht
    rw [regexpTest, Bool.or_eq_true] at ht
    rcases ht with ht | ht
    · exact ⟨prev, [], c :: cs, rfl, ht⟩
    · obtain ⟨p, pre, suf, hs, ha⟩ := ih (some c) ht
      exact ⟨p, c :: pre, suf, by rw [hs]; rfl, ha⟩

/-- On a text without line terminators only the attempt at index 0 can pass `^`. -/
theorem regexpTest_eq_attempt (g : JSString → Bool) :
    ∀ (s : JSString) (prev : Option Char), (∀ c ∈ s, isLineTerminator c = false) →
      regexpTest (fun p t => lineStart p && g t) prev s = (lineStart prev && g s) := by
  intro s
  induction s with
  | nil => intro prev _; rw [regexpTest]
  | cons c cs ih =>
    intro prev hs
    have hc : isLineTerminator c = false := hs c (List.mem_cons_self _ _)
    rw [regexpTest, ih (some c) (fun x hx => hs x (List.mem_cons_of_mem _ hx))]
    simp [lineStart, hc]

theorem regexpForFile_of_begins (lit s : JSString) (hp : lit <+: s) :
    regexpForFile lit s = true := by
  apply regexpTest_of_attempt
  simp [regexpForFileAt, lineStart, (matchLiteral_isSome_iff lit s).mpr hp]

theorem regexpForFile_length (lit s : JSString) (ht : regexpForFile lit s = true) :
    lit.length ≤ s.length := by
  obtain ⟨p, pre, suf, hs, ha⟩ := regexpTest_exists _ s none ht
  simp only [regexpForFileAt, Bool.and_eq_true] at ha
  obtain ⟨rest, hr⟩ := (matchLiteral_isSome_iff lit suf).mp ha.2
  rw [hs, ← hr]
  simp only [List.length_append]
  omega

theorem regexpForFolder_length (lit s : JSString) (ht : regexpForFolder lit s = true) :
    lit.length < s.length := by
  obtain ⟨p, pre, suf, hs, ha⟩ := regexpTest_exists _ s none ht
  simp only [regexpForFolderAt, Bool.and_eq_true] at ha
  cases hm : matchLiteral lit suf with
  | none => rw [hm] at ha; exact absurd ha.2 (by simp)
  | some rest =>
    rw [hm] at ha
    have hsuf := (matchLiteral_eq_some_iff lit suf rest).mp hm
    cases rest with
    | nil => exact absurd ha.2 (by simp [matchDotPlus])
    | cons r rs =>
      rw [hs, hsuf]
      simp only [List.length_append, List.length_cons]
      omega

/-- Without line terminators `regexpForFile` is the test "begins with". -/
theorem regexpForFile_plain (lit s : JSString)
    (hs : ∀ c ∈ s, isLineTerminator c = false) :
    regexpForFile lit s = true ↔ lit <+: s := by
  unfold regexpForFile
  have hfun : regexpForFileAt lit = fun p t => lineStart p && (matchLiteral lit t).isSome := rfl
  rw [hfun, regexpTest_eq_attempt _ s none hs]
  simp [lineStart, matchLiteral_isSome_iff]

/-- Without line terminators `regexpForFolder` is the test "begins with, and is longer". -/
theorem regexpForFolder_plain (lit s : JSString)
    (hs : ∀ c ∈ s, isLineTerminator c = false) :
    regexpForFolder lit s = true ↔ lit <+: s ∧ lit.length < s.length := by
  unfold regexpForFolder
  have hfun : regexpForFolderAt lit = fun p t => lineStart p &&
      (match matchLiteral lit t with
       | some rest => matchDotPlus rest
       | none => false) := rfl
  rw [hfun, regexpTest_eq_attempt _ s none hs]
  simp only [lineStart, Bool.true_and]
  cases hm : matchLiteral lit s with
  | none =>
    simp only [Bool.false_eq_true, false_iff, not_and]
    intro hp
    have := (matchLiteral_isSome_iff lit s).mpr hp
    rw [hm] at this
    cases this
  | some rest =>
    have hsuf := (matchLiteral_eq_some_iff lit s rest).mp hm
    subst hsuf
    cases rest with
    | nil => simp [matchDotPlus]
    | cons r rs =>
      have hr : isLineTerminator r = false := hs r (by simp)
      simp [matchDotPlus, hr]

/-! ## What a mark says about the two paths -/

theorem marks_of_isRegularFile (h : Host) (d x : JSString) (hx : isRegularFile h x = true) :
    marks h d x = regexpForFile (h.resolve d) (h.dirname (h.resolve x)) := by
  unfold isRegularFile at hx
  unfold marks marksResolved
  cases hs : h.statSync (h.resolve x) with
  | none => rw [hs] at hx; cases hx
  | some stat =>
    rw [hs] at hx
    simp only at hx
    simp only [hx, if_true]

theorem marks_of_isDirectory (h : Host) (d x : JSString) (hx : isDirectory h x = true) :
    marks h d x = regexpForFolder (h.resolve d) (h.resolve x) := by
  unfold isDirectory at hx
  unfold marks marksResolved
  cases hs : h.statSync (h.resolve x) with
  | none => rw [hs] at hx; cases hx
  | some stat =>
    rw [hs] at hx
    simp only [Bool.not_eq_true'] at hx
    simp [hx]

theorem isRegularFile_or_isDirectory (h : Host) (x : JSString) (hx : pathExists h x) :
    isRegularFile h x = true ∨ isDirectory h x = true := by
  unfold pathExists at hx
  unfold isRegularFile isDirectory
  cases hs : h.statSync (h.resolve x) with
  | none => rw [hs] at hx; cases hx
  | some stat => cases hf : stat.isFile <;> simp

theorem pathExists_of_marks (h : Host) (d x : JSString) (hm : marks h d x = true) :
    pathExists h x := by
  unfold marks marksResolved at hm
  unfold pathExists
  cases hs : h.statSync (h.resolve x) with
  | none => rw [hs] at hm; cases hm
  | some stat => rfl

/-- A mark needs the anchor to be shorter than the candidate, given that the
parent of a regular file is shorter than the file's path. -/
theorem marks_length_lt (h : Host) (d x : JSString)
    (hparent : isRegularFile h x = true →
      (h.dirname (h.resolve x)).length < (h.resolve x).length)
    (hm : marks h d x = true) : (h.resolve d).length < (h.resolve x).length := by
  rcases isRegularFile_or_isDirectory h x (pathExists_of_marks h d x hm) with hf | hd
  · rw [marks_of_isRegularFile h d x hf] at hm
    have := regexpForFile_length _ _ hm
    have := hparent hf
    omega
  · rw [marks_of_isDirectory h d x hd] at hm
    exact regexpForFolder_length _ _ hm

theorem exists_min_length (f : JSString → Nat) :
    ∀ (l : List JSString), l ≠ [] → ∃ m ∈ l, ∀ x ∈ l, f m ≤ f x := by
  intro l
  induction l with
  | nil => intro hne; exact absurd rfl hne
  | cons a as ih =>
    intro _
    by_cases has : as = []
    · subst has
      exact ⟨a, by simp, by simp⟩
    · obtain ⟨m, hm, hmin⟩ := ih has
      by_cases hle : f a ≤ f m
      · refine ⟨a, by simp, ?_⟩
        intro x hx
        rcases List.mem_cons.mp hx with rfl | hx'
        · exact le_refl _
        · exact le_trans hle (hmin x hx')
      · refine ⟨m, List.mem_cons_of_mem _ hm, ?_⟩
        intro x hx
        rcases List.mem_cons.mp hx with rfl | hx'
        · omega
        · exact hmin x hx'

/-- Pass 1 keeps an entry of least resolved length. -/
theorem survivors_ne_nil (h : Host) (dirs : List JSString) (hne : dirs ≠ [])
    (hparent : ∀ d ∈ dirs, isRegularFile h d = true →
      (h.dirname (h.resolve d)).length < (h.resolve d).length) :
    survivors h dirs dirs ≠ [] := by
  obtain ⟨m, hm, hmin⟩ := exists_min_length (fun p => (h.resolve p).length) dirs hne
  have hmem : m ∈ survivors h dirs dirs := by
    rw [mem_survivors]
    refine ⟨hm, ?_⟩
    intro d hd
    cases hmk : marks h d m with
    | false => rfl
    | true =>
      have hlt := marks_length_lt h d m (hparent m hm) hmk
      have hle := hmin d hd
      simp only at hle
      omega
  intro hnil
  rw [hnil] at hmem
  cases hmem

/-! ## Anchors that were removed themselves -/

/-- Without line terminators, an anchor that marks an entry of `directories`
begins that entry. -/
theorem prefix_of_marks (h : Host) (d₂ d : JSString) (hplain : plainPath h d)
    (hparent : isRegularFile h d = true → h.dirname (h.resolve d) <+: h.resolve d)
    (hm : marks h d₂ d = true) : h.resolve d₂ <+: h.resolve d := by
  rcases isRegularFile_or_isDirectory h d (pathExists_of_marks h d₂ d hm) with hf | hd
  · rw [marks_of_isRegularFile h d₂ d hf] at hm
    exact ((regexpForFile_plain _ _ hplain.2).mp hm).trans (hparent hf)
  · rw [marks_of_isDirectory h d₂ d hd] at hm
    exact ((regexpForFolder_plain _ _ hplain.1).mp hm).1

/-- Without line terminators, what begins an anchor marks what the anchor marks. -/
theorem marks_of_shorter_anchor (h : Host) (d₂ d x : JSString) (hplain : plainPath h x)
    (hp : h.resolve d₂ <+: h.resolve d) (hm : marks h d x = true) :
    marks h d₂ x = true := by
  rcases isRegularFile_or_isDirectory h x (pathExists_of_marks h d x hm) with hf | hd
  · rw [marks_of_isRegularFile h d x hf] at hm
    rw [marks_of_isRegularFile h d₂ x hf]
    exact regexpForFile_of_begins _ _
      (hp.trans ((regexpForFile_plain _ _ hplain.2).mp hm))
  · rw [marks_of_isDirectory h d x hd] at hm
    rw [marks_of_isDirectory h d₂ x hd]
    have hdx := (regexpForFolder_plain _ _ hplain.1).mp hm
    refine (regexpForFolder_plain _ _ hplain.1).mpr ⟨hp.trans hdx.1, ?_⟩
    have := hp.length_le
    omega

/-- Without line terminators, whatever an entry of `directories` marks is marked
by an entry that pass 1 keeps. -/
theorem exists_surviving_anchor (h : Host) (dirs : List JSString) (x : JSString)
    (hplain : ∀ d ∈ dirs, plainPath h d) (hx : plainPath h x)
    (hparent : ∀ d ∈ dirs, isRegularFile h d = true →
      h.dirname (h.resolve d) <+: h.resolve d ∧
      (h.dirname (h.resolve d)).length < (h.resolve d).length) :
    ∀ (n : Nat) (d : JSString), (h.resolve d).length ≤ n → d ∈ dirs → marks h d x = true →
      ∃ k ∈ survivors h dirs dirs, marks h k x = true := by
  intro n
  induction n with
  | zero =>
    intro d hn hd hm
    by_cases hs : d ∈ survivors h dirs dirs
    · exact ⟨d, hs, hm⟩
    · obtain ⟨d₂, hd₂, hm₂⟩ := exists_marks_of_not_mem_survivors h dirs dirs d hd hs
      have := marks_length_lt h d₂ d (fun hf => (hparent d hd hf).2) hm₂
      omega
  | succ n ih =>
    intro d hn hd hm
    by_cases hs : d ∈ survivors h dirs dirs
    · exact ⟨d, hs, hm⟩
    · obtain ⟨d₂, hd₂, hm₂⟩ := exists_marks_of_not_mem_survivors h dirs dirs d hd hs
      have hlt := marks_length_lt h d₂ d (fun hf => (hparent d hd hf).2) hm₂
      have hp := prefix_of_marks h d₂ d (hplain d hd) (fun hf => (hparent d hd hf).1) hm₂
      exact ih d₂ (by omega) hd₂ (marks_of_shorter_anchor h d₂ d x hx hp hm)

/-! ## Inputs without line terminators -/

theorem pathExists_of_isDirectory (h : Host) (x : JSString) (hx : isDirectory h x = true) :
    pathExists h x := by
  unfold isDirectory at hx
  unfold pathExists
  cases hs : h.statSync (h.resolve x) with
  | none => rw [hs] at hx; cases hx
  | some stat => rfl

theorem pathExists_of_isRegularFile (h : Host) (x : JSString)
    (hx : isRegularFile h x = true) : pathExists h x := by
  unfold isRegularFile at hx
  unfold pathExists
  cases hs : h.statSync (h.resolve x) with
  | none => rw [hs] at hx; cases hx
  | some stat => rfl

theorem isStrictPrefix_iff (a b : JSString) :
    isStrictPrefix a b = true ↔ a <+: b ∧ a.length < b.length := by
  simp [isStrictPrefix]

theorem isStrictPrefix_of_isStrictAncestor (a b : JSString)
    (hab : isStrictAncestor a b = true) : isStrictPrefix a b = true := by
  unfold isStrictAncestor at hab
  unfold isStrictPrefix
  rw [Bool.and_eq_true] at hab
  exact hab.1

/-- The covering invariant where each entry has the kind of its list and no
directory path holds a line terminator: after the call no directory left is a
strict literal prefix, so no strict ancestor, of another, and no directory left
begins the parent of a file left. -/
theorem crop_covering_of_plain (h : Host) (self : Items)
    (hdirs : ∀ d ∈ self.directories, isDirectory h d = true)
    (hfiles : ∀ f ∈ self.files, isRegularFile h f = true)
    (hplain : ∀ d ∈ self.directories, ∀ c ∈ h.resolve d, isLineTerminator c = false) :
    (cropUnnecessaryItems h self).completion = .ok () ∧
    (∀ a ∈ (cropUnnecessaryItems h self).self.directories,
      ∀ b ∈ (cropUnnecessaryItems h self).self.directories,
        isStrictPrefix (h.resolve a) (h.resolve b) = false ∧
        isStrictAncestor (h.resolve a) (h.resolve b) = false) ∧
    (∀ f ∈ (cropUnnecessaryItems h self).self.files,
      ∀ d ∈ (cropUnnecessaryItems h self).self.directories,
        ¬ h.resolve d <+: h.dirname (h.resolve f)) := by
  rw [crop_ok h self (fun x hx => pathExists_of_isDirectory h x (hdirs x hx))
    (Or.inr (fun x hx => pathExists_of_isRegularFile h x (hfiles x hx)))]
  refine ⟨rfl, ?_, ?_⟩
  · intro a ha b hb
    have ha' := (mem_survivors h _ _ a).mp ha
    have hb' := (mem_survivors h _ _ b).mp hb
    have hnm := hb'.2 a ha'.1
    rw [marks_of_isDirectory h a b (hdirs b hb'.1)] at hnm
    have hsp : isStrictPrefix (h.resolve a) (h.resolve b) = false := by
      cases hp : isStrictPrefix (h.resolve a) (h.resolve b) with
      | false => rfl
      | true =>
        have := (regexpForFolder_plain _ _ (hplain b hb'.1)).mpr
          ((isStrictPrefix_iff _ _).mp hp)
        rw [this] at hnm
        cases hnm
    refine ⟨hsp, ?_⟩
    cases hanc : isStrictAncestor (h.resolve a) (h.resolve b) with
    | false => rfl
    | true =>
      rw [isStrictPrefix_of_isStrictAncestor _ _ hanc] at hsp
      cases hsp
  · intro f hf d hd hpre
    have hf' := (mem_survivors h _ _ f).mp hf
    have hnm := hf'.2 d hd
    rw [marks_of_isRegularFile h d f (hfiles f hf'.1),
      regexpForFile_of_begins _ _ hpre] at hnm
    cases hnm

/-- Unrelated directories where no path holds a line terminator: when every
entry of `directories` is a directory on disk and no resolved path is a strict
literal prefix of another, the call leaves `directories` as it was and an empty
`files` empty. -/
theorem crop_unrelated_of_plain (h : Host) (dirs : List JSString)
    (hdirs : ∀ d ∈ dirs, isDirectory h d = true)
    (hplain : ∀ d ∈ dirs, ∀ c ∈ h.resolve d, isLineTerminator c = false)
    (hno : ∀ a ∈ dirs, ∀ b ∈ dirs, isStrictPrefix (h.resolve a) (h.resolve b) = false) :
    (cropUnnecessaryItems h { directories := dirs, files := [] }).completion = .ok () ∧
    (cropUnnecessaryItems h { directories := dirs, files := [] }).self
      = { directories := dirs, files := [] } := by
  rw [crop_ok h _ (fun x hx => pathExists_of_isDirectory h x (hdirs x hx))
    (Or.inr (fun x hx => by cases hx))]
  refine ⟨rfl, ?_⟩
  have hkeep : survivors h dirs dirs = dirs := by
    apply List.filter_eq_self.mpr
    intro b hb
    simp only [Bool.not_eq_true', List.any_eq_false]
    intro a ha
    rw [marks_of_isDirectory h a b (hdirs b hb)]
    intro hm
    have := (isStrictPrefix_iff _ _).mpr
      ((regexpForFolder_plain _ _ (hplain b hb)).mp hm)
    rw [hno a ha b hb] at this
    cases this
  simp only [pruned, hkeep]
  simp [survivors]

/-! ## The stat calls of a scan -/

theorem scanSecondGroup_statCalls_subset (h : Host) (a : JSString) :
    ∀ (sg : List JSString) (i : Nat) (idx : List Nat) (calls : List JSString),
      ∀ c ∈ calls, c ∈ (scanSecondGroup h a i sg idx calls).statCalls := by
  intro sg
  induction sg with
  | nil => intro i idx calls c hc; simpa [scanSecondGroup] using hc
  | cons x rest ih =>
    intro i idx calls c hc
    have hc' : c ∈ calls ++ [h.resolve x] := List.mem_append_left _ hc
    rw [scanSecondGroup]
    cases hstat : h.statSync (h.resolve x) with
    | none => exact hc'
    | some stat =>
      simp only
      split <;> split <;> exact ih _ _ _ c hc'

theorem scanSecondGroup_statCalls_mem (h : Host) (a : JSString) (f : JSString)
    (post : List JSString) :
    ∀ (pre : List JSString) (i : Nat) (idx : List Nat) (calls : List JSString),
      (∀ g ∈ pre, pathExists h g) →
      h.resolve f ∈ (scanSecondGroup h a i (pre ++ f :: post) idx calls).statCalls := by
  intro pre
  induction pre with
  | nil =>
    intro i idx calls _
    have hc : h.resolve f ∈ calls ++ [h.resolve f] := by simp
    rw [List.nil_append, scanSecondGroup]
    cases hstat : h.statSync (h.resolve f) with
    | none => exact hc
    | some stat =>
      simp only
      split <;> split <;> exact scanSecondGroup_statCalls_subset h a _ _ _ _ _ hc
  | cons x rest ih =>
    intro i idx calls hpre
    have hx : pathExists h x := hpre x (List.mem_cons_self _ _)
    have hrest : ∀ g ∈ rest, pathExists h g := fun g hg => hpre g (List.mem_cons_of_mem _ hg)
    unfold pathExists at hx
    obtain ⟨stat, hstat⟩ := Option.isSome_iff_exists.mp hx
    rw [List.cons_append, scanSecondGroup]
    simp only [hstat]
    split <;> split <;> exact ih _ _ _ hrest

theorem addToUnnecessaryIndexes_statCalls_subset (h : Host) (sg : List JSString) :
    ∀ (fg : List JSString) (idx : List Nat) (calls : List JSString),
      ∀ c ∈ calls, c ∈ (addToUnnecessaryIndexes h fg sg idx calls).statCalls := by
  intro fg
  induction fg with
  | nil => intro idx calls c hc; simpa [addToUnnecessaryIndexes] using hc
  | cons d more ih =>
    intro idx calls c hc
    have hscan := scanSecondGroup_statCalls_subset h (h.resolve d) sg 0 idx calls c hc
    rw [addToUnnecessaryIndexes]
    cases hs : scanSecondGroup h (h.resolve d) 0 sg idx calls with
    | mk r calls' =>
      rw [hs] at hscan
      cases r with
      | error e => exact hscan
      | ok idx' => exact ih idx' calls' c hscan

/-- With an anchor, a file entry whose predecessors exist is passed to `fs.statSync`. -/
theorem addToUnnecessaryIndexes_statCalls_mem (h : Host) (fg pre post : List JSString)
    (f : JSString) (idx : List Nat) (calls : List JSString) (hfg : fg ≠ [])
    (hpre : ∀ g ∈ pre, pathExists h g) :
    h.resolve f ∈ (addToUnnecessaryIndexes h fg (pre ++ f :: post) idx calls).statCalls := by
  cases fg with
  | nil => exact absurd rfl hfg
  | cons d more =>
    have hscan := scanSecondGroup_statCalls_mem h (h.resolve d) f post pre 0 idx calls hpre
    rw [addToUnnecessaryIndexes]
    cases hs : scanSecondGroup h (h.resolve d) 0 (pre ++ f :: post) idx calls with
    | mk r calls' =>
      rw [hs] at hscan
      cases r with
      | error e => exact hscan
      | ok idx' =>
        exact addToUnnecessaryIndexes_statCalls_subset h _ more idx' calls' _ hscan

/-- After a pass 1 on existing directories, the stat calls of the call are those
that pass 2 leaves. -/
theorem crop_statCalls_eq (h : Host) (self : Items) (hne : self.directories ≠ [])
    (hdirs : ∀ x ∈ self.directories, pathExists h x) :
    (cropUnnecessaryItems h self).statCalls
      = (addToUnnecessaryIndexes h (survivors h self.directories self.directories)
          self.files []
          (self.directories.map (fun _ => self.directories.map h.resolve)).flatten).statCalls := by
  obtain ⟨dirs, files⟩ := self
  cases dirs with
  | nil => exact absurd rfl hne
  | cons d ds =>
    obtain ⟨idx₁, heq₁, hright₁⟩ := pass_eq h (d :: ds) (d :: ds) [] (Or.inr hdirs)
    simp only [List.nil_append] at heq₁
    simp only [cropUnnecessaryItems, List.length_cons, Nat.add_one_ne_zero, if_false,
      Items.new, heq₁, hright₁]
    cases hs : addToUnnecessaryIndexes h (survivors h (d :: ds) (d :: ds)) files []
        ((d :: ds).map (fun _ => (d :: ds).map h.resolve)).flatten with
    | mk r calls' =>
      cases r with
      | error e => rfl
      | ok idx' => rfl

/-! ## Matches in the middle of a text -/

theorem charBefore_cons (prev : Option Char) (c : Char) (pre : JSString) :
    charBefore prev (c :: pre) = charBefore (some c) pre := by
  cases pre with
  | nil => simp [charBefore]
  | cons a as =>
    simp only [charBefore, List.getLast?_cons_cons]
    rw [List.getLast?_eq_getLast (a :: as) (by simp)]

theorem charBefore_append (prev : Option Char) :
    ∀ (p q : JSString), charBefore prev (p ++ q) = charBefore (charBefore prev p) q := by
  intro p
  induction p generalizing prev with
  | nil => intro q; simp [charBefore]
  | cons c cs ih =>
    intro q
    rw [List.cons_append, charBefore_cons, charBefore_cons, ih]

theorem charBefore_of_ne_nil (x y : Option Char) :
    ∀ (q : JSString), q ≠ [] → charBefore x q = charBefore y q := by
  intro q hq
  cases q with
  | nil => exact absurd rfl hq
  | cons c cs => rw [charBefore_cons, charBefore_cons]

/-- The search passes exactly when the attempt passes at some split of the text. -/
theorem regexpTest_iff (attempt : Option Char → JSString → Bool) :
    ∀ (s : JSString) (prev : Option Char), regexpTest attempt prev s = true ↔
      ∃ pre suf, s = pre ++ suf ∧ attempt (charBefore prev pre) suf = true := by
  intro s
  induction s with
  | nil =>
    intro prev
    rw [regexpTest]
    constructor
    · intro ha; exact ⟨[], [], rfl, ha⟩
    · rintro ⟨pre, suf, hs, ha⟩
      have hpre : pre = [] := (List.append_eq_nil.mp hs.symm).1
      have hsuf : suf = [] := (List.append_eq_nil.mp hs.symm).2
      subst hpre; subst hsuf
      exact ha
  | cons c cs ih =>
    intro prev
    rw [regexpTest, Bool.or_eq_true, ih (some c)]
    constructor
    · rintro (ha | ⟨pre, suf, hs, ha⟩)
      · exact ⟨[], c :: cs, rfl, ha⟩
      · exact ⟨c :: pre, suf, by rw [hs]; rfl, by rw [charBefore_cons]; exact ha⟩
    · rintro ⟨pre, suf, hs, ha⟩
      cases pre with
      | nil =>
        left
        rw [List.nil_append] at hs
        rw [hs]
        exact ha
      | cons a as =>
        right
        rw [List.cons_append, List.cons.injEq] at hs
        obtain ⟨hca, hcs⟩ := hs
        subst hca
        exact ⟨as, suf, hcs, by rw [← charBefore_cons]; exact ha⟩

theorem regexpForFile_iff (lit s : JSString) :
    regexpForFile lit s = true ↔
      ∃ pre rest, s = pre ++ (lit ++ rest) ∧ lineStart (charBefore none pre) = true := by
  unfold regexpForFile
  rw [regexpTest_iff]
  constructor
  · rintro ⟨pre, suf, hs, ha⟩
    simp only [regexpForFileAt, Bool.and_eq_true] at ha
    obtain ⟨rest, hr⟩ := (matchLiteral_isSome_iff lit suf).mp ha.2
    exact ⟨pre, rest, by rw [hs, hr], ha.1⟩
  · rintro ⟨pre, rest, hs, hl⟩
    refine ⟨pre, lit ++ rest, hs, ?_⟩
    simp only [regexpForFileAt, Bool.and_eq_true]
    exact ⟨hl, (matchLiteral_isSome_iff lit _).mpr ⟨rest, rfl⟩⟩

theorem regexpForFolder_iff (lit s : JSString) :
    regexpForFolder lit s = true ↔
      ∃ pre c rest, s = pre ++ (lit ++ c :: rest) ∧ lineStart (charBefore none pre) = true ∧
        isLineTerminator c = false := by
  unfold regexpForFolder
  rw [regexpTest_iff]
  constructor
  · rintro ⟨pre, suf, hs, ha⟩
    simp only [regexpForFolderAt, Bool.and_eq_true] at ha
    cases hm : matchLiteral lit suf with
    | none => rw [hm] at ha; exact absurd ha.2 (by simp)
    | some rest =>
      rw [hm] at ha
      have hsuf := (matchLiteral_eq_some_iff lit suf rest).mp hm
      cases rest with
      | nil => exact absurd ha.2 (by simp [matchDotPlus])
      | cons c cs =>
        refine ⟨pre, c, cs, by rw [hs, hsuf], ha.1, ?_⟩
        simpa [matchDotPlus] using ha.2
  · rintro ⟨pre, c, rest, hs, hl, hc⟩
    refine ⟨pre, lit ++ c :: rest, hs, ?_⟩
    simp only [regexpForFolderAt, Bool.and_eq_true]
    refine ⟨hl, ?_⟩
    rw [(matchLiteral_eq_some_iff lit (lit ++ c :: rest) (c :: rest)).mpr rfl]
    simp [matchDotPlus, hc]

theorem lineStart_charBefore_append (p q : JSString)
    (hp : lineStart (charBefore none p) = true) (hq : lineStart (charBefore none q) = true) :
    lineStart (charBefore none (p ++ q)) = true := by
  by_cases hqn : q = []
  · subst hqn
    rw [List.append_nil]
    exact hp
  · rw [charBefore_append, charBefore_of_ne_nil _ none q hqn]
    exact hq

/-- What matches the folder pattern of `a` inside `b` is found where the file
pattern of `b` matches. -/
theorem regexpForFile_of_folder (a b s : JSString) (hab : regexpForFolder a b = true)
    (hbs : regexpForFile b s = true) : regexpForFile a s = true := by
  obtain ⟨pre, c, rest, hb, hl, _⟩ := (regexpForFolder_iff a b).mp hab
  obtain ⟨pre', rest', hs, hl'⟩ := (regexpForFile_iff b s).mp hbs
  refine (regexpForFile_iff a s).mpr ⟨pre' ++ pre, c :: rest ++ rest', ?_,
    lineStart_charBefore_append pre' pre hl' hl⟩
  rw [hs, hb]
  simp

/-- What matches the folder pattern of `a` inside `b` is found, with its next
character, where the folder pattern of `b` matches. -/
theorem regexpForFolder_of_folder (a b s : JSString) (hab : regexpForFolder a b = true)
    (hbs : regexpForFolder b s = true) : regexpForFolder a s = true := by
  obtain ⟨pre, c, rest, hb, hl, hc⟩ := (regexpForFolder_iff a b).mp hab
  obtain ⟨pre', c', rest', hs, hl', _⟩ := (regexpForFolder_iff b s).mp hbs
  refine (regexpForFolder_iff a s).mpr ⟨pre' ++ pre, c, rest ++ c' :: rest', ?_,
    lineStart_charBefore_append pre' pre hl' hl, hc⟩
  rw [hs, hb]
  simp

/-- An anchor that marks a directory marks whatever that directory marks. -/
theorem marks_of_marks_directory (h : Host) (d₂ d x : JSString)
    (hd : isDirectory h d = true) (hm₂ : marks h d₂ d = true) (hm : marks h d x = true) :
    marks h d₂ x = true := by
  rw [marks_of_isDirectory h d₂ d hd] at hm₂
  rcases isRegularFile_or_isDirectory h x (pathExists_of_marks h d x hm) with hf | hdx
  · rw [marks_of_isRegularFile h d x hf] at hm
    rw [marks_of_isRegularFile h d₂ x hf]
    exact regexpForFile_of_folder _ _ _ hm₂ hm
  · rw [marks_of_isDirectory h d x hdx] at hm
    rw [marks_of_isDirectory h d₂ x hdx]
    exact regexpForFolder_of_folder _ _ _ hm₂ hm

/-- When the entries of `directories` are directories on disk, whatever one of
them marks is marked by one that pass 1 keeps. -/
theorem exists_surviving_directory (h : Host) (dirs : List JSString) (x : JSString)
    (hkind : ∀ d ∈ dirs, isDirectory h d = true) :
    ∀ (n : Nat) (d : JSString), (h.resolve d).length ≤ n → d ∈ dirs → marks h d x = true →
      ∃ k ∈ survivors h dirs dirs, marks h k x = true := by
  intro n
  induction n with
  | zero =>
    intro d hn hd hm
    by_cases hs : d ∈ survivors h dirs dirs
    · exact ⟨d, hs, hm⟩
    · obtain ⟨d₂, hd₂, hm₂⟩ := exists_marks_of_not_mem_survivors h dirs dirs d hd hs
      rw [marks_of_isDirectory h d₂ d (hkind d hd)] at hm₂
      have := regexpForFolder_length _ _ hm₂
      omega
  | succ n ih =>
    intro d hn hd hm
    by_cases hs : d ∈ survivors h dirs dirs
    · exact ⟨d, hs, hm⟩
    · obtain ⟨d₂, hd₂, hm₂⟩ := exists_marks_of_not_mem_survivors h dirs dirs d hd hs
      have hlt : (h.resolve d₂).length < (h.resolve d).length := by
        have hm₂' := hm₂
        rw [marks_of_isDirectory h d₂ d (hkind d hd)] at hm₂'
        exact regexpForFolder_length _ _ hm₂'
      exact ih d₂ (by omega) hd₂ (marks_of_marks_directory h d₂ d x (hkind d hd) hm₂ hm)

/-! ## The anchors of pass 2 -/

/-- Pass 2 anchor choice where line terminators cannot come into play: the
entries of `directories` are directories on disk, or no listed path or parent
path holds a line terminator. Then, when all listed paths exist, the scan of `files` with
the directories the call leaves as anchors and the scan with all of
`directories` as anchors both complete and mark the same file indexes, and the
`files` the call leaves is what either set of marks keeps. In the second case
the parent path of a regular file listed in `directories` is taken to be a
shorter prefix of it, as `path.dirname` gives it. -/
theorem crop_anchor_choice (h : Host) (self : Items)
    (hall : ∀ x ∈ self.directories ++ self.files, pathExists h x)
    (hsafe : (∀ d ∈ self.directories, isDirectory h d = true) ∨
      ((∀ x ∈ self.directories ++ self.files, plainPath h x) ∧
        ∀ d ∈ self.directories, isRegularFile h d = true →
          h.dirname (h.resolve d) <+: h.resolve d ∧
          (h.dirname (h.resolve d)).length < (h.resolve d).length)) :
    ∃ idxS idxD callsS callsD,
      addToUnnecessaryIndexes h (cropUnnecessaryItems h self).self.directories self.files [] []
        = { indexes := .ok idxS, statCalls := callsS } ∧
      addToUnnecessaryIndexes h self.directories self.files [] []
        = { indexes := .ok idxD, statCalls := callsD } ∧
      (∀ j, j ∈ idxS ↔ j ∈ idxD) ∧
      (cropUnnecessaryItems h self).self.files = addToRightGroup [] self.files idxS ∧
      (cropUnnecessaryItems h self).self.files = addToRightGroup [] self.files idxD := by
  have hdirs : ∀ x ∈ self.directories, pathExists h x :=
    fun x hx => hall x (List.mem_append_left _ hx)
  have hfiles : ∀ x ∈ self.files, pathExists h x :=
    fun x hx => hall x (List.mem_append_right _ hx)
  have hkept : ∀ x ∈ self.files, ∀ d ∈ self.directories, marks h d x = true →
      ∃ k ∈ survivors h self.directories self.directories, marks h k x = true := by
    intro x hx d hd hm
    rcases hsafe with hkind | ⟨hplain, hparent⟩
    · exact exists_surviving_directory h self.directories x hkind _ d (le_refl _) hd hm
    · exact exists_surviving_anchor h self.directories x
        (fun d hd => hplain d (List.mem_append_left _ hd))
        (hplain x (List.mem_append_right _ hx)) hparent _ d (le_refl _) hd hm
  rw [crop_ok h self hdirs (Or.inr hfiles)]
  obtain ⟨idxS, heqS, hmemS⟩ := addToUnnecessaryIndexes_ok h self.files hfiles
    (survivors h self.directories self.directories) [] []
  obtain ⟨idxD, heqD, hmemD⟩ := addToUnnecessaryIndexes_ok h self.files hfiles
    self.directories [] []
  obtain ⟨idxS', heqS', hrightS⟩ := pass_eq h (survivors h self.directories self.directories)
    self.files [] (Or.inr hfiles)
  obtain ⟨idxD', heqD', hrightD⟩ := pass_eq h self.directories self.files [] (Or.inr hfiles)
  have hS : idxS' = idxS := by
    have := heqS'.symm.trans heqS
    simp only [Scan.mk.injEq, Except.ok.injEq] at this
    exact this.1
  have hD : idxD' = idxD := by
    have := heqD'.symm.trans heqD
    simp only [Scan.mk.injEq, Except.ok.injEq] at this
    exact this.1
  subst hS; subst hD
  have hsame : survivors h (survivors h self.directories self.directories) self.files
      = survivors h self.directories self.files := by
    unfold survivors
    apply List.filter_congr
    intro x hx
    have hany : (List.filter (fun y => !self.directories.any (fun d => marks h d y))
          self.directories).any (fun d => marks h d x)
        = self.directories.any (fun d => marks h d x) := by
      rw [Bool.eq_iff_iff, List.any_eq_true, List.any_eq_true]
      constructor
      · rintro ⟨k, hk, hm⟩
        exact ⟨k, (List.filter_sublist _).subset hk, hm⟩
      · rintro ⟨d, hd, hm⟩
        exact hkept x hx d hd hm
    rw [hany]
  refine ⟨idxS', idxD', _, _, heqS, heqD, ?_, ?_, ?_⟩
  · intro j
    rw [hmemS, hmemD]
    simp only [List.not_mem_nil, false_or]
    constructor
    · rintro ⟨x, hx, d, hd, hm⟩
      exact ⟨x, hx, d, (survivors_sublist h _ _).subset hd, hm⟩
    · rintro ⟨x, hx, d, hd, hm⟩
      obtain ⟨k, hk, hmk⟩ := hkept x (List.snd_mem_of_mem_enumFrom hx) d hd hm
      exact ⟨x, hx, k, hk, hmk⟩
  · rw [hrightS]; rfl
  · rw [hrightD, ← hsame]; rfl

/-- Scenario A meets the hypotheses of `crop_anchor_choice`. -/
theorem crop_anchor_choice_witness :
    (∀ x ∈ scenarioItems.directories ++ scenarioItems.files, pathExists scenarioHost x) ∧
    (∀ d ∈ scenarioItems.directories, isDirectory scenarioHost d = true) ∧
    (∀ x ∈ scenarioItems.directories ++ scenarioItems.files, plainPath scenarioHost x) ∧
    ∃ idxS idxD callsS callsD,
      addToUnnecessaryIndexes scenarioHost
          (cropUnnecessaryItems scenarioHost scenarioItems).self.directories
          scenarioItems.files [] []
        = { indexes := .ok idxS, statCalls := callsS } ∧
      addToUnnecessaryIndexes scenarioHost scenarioItems.directories scenarioItems.files [] []
        = { indexes := .ok idxD, statCalls := callsD } ∧
      (∀ j, j ∈ idxS ↔ j ∈ idxD) ∧
      (cropUnnecessaryItems scenarioHost scenarioItems).self.files
        = addToRightGroup [] scenarioItems.files idxS ∧
      (cropUnnecessaryItems scenarioHost scenarioItems).self.files
        = addToRightGroup [] scenarioItems.files idxD :=
  ⟨by decide, by decide, by decide,
    crop_anchor_choice scenarioHost scenarioItems (by decide) (Or.inl (by decide))⟩

/-! ## The claims -/

/-- C1, at the failing input: `/` and `/\nx` are both directories on disk, the
call completes and keeps both in `directories`, and `/` is a strict ancestor of
`/\nx`: the `(.+)` of `regexpForFolder` does not match the line feed that
follows the anchor. -/
theorem crop_keeps_root_and_its_child :
    isDirectory rootHost "/".toList = true ∧
    isDirectory rootHost "/\nx".toList = true ∧
    (cropUnnecessaryItems rootHost (Items.mk ["/".toList, "/\nx".toList] [])).completion
      = .ok () ∧
    (cropUnnecessaryItems rootHost (Items.mk ["/".toList, "/\nx".toList] [])).self
      = Items.mk ["/".toList, "/\nx".toList] [] ∧
    isStrictAncestor (rootHost.resolve "/".toList) (rootHost.resolve "/\nx".toList) = true := by
  refine ⟨rfl, rfl, rfl, rfl, rfl⟩

/-- C2, the claim as stated fails: an entry of `files` that is a directory on
disk is tested by its own path, not by its parent; `/ab` is removed from `files`
under the anchor `/a`, and no directory left begins its parent `/`. -/
theorem crop_removes_file_entry_by_own_path :
    (cropUnnecessaryItems (posixHost [("/a", false), ("/ab", false)])
        (Items.mk ["/a".toList] ["/ab".toList])).completion = .ok () ∧
    (cropUnnecessaryItems (posixHost [("/a", false), ("/ab", false)])
        (Items.mk ["/a".toList] ["/ab".toList])).self = Items.mk ["/a".toList] [] ∧
    ¬ ∃ d ∈ (cropUnnecessaryItems (posixHost [("/a", false), ("/ab", false)])
        (Items.mk ["/a".toList] ["/ab".toList])).self.directories,
      (posixHost [("/a", false), ("/ab", false)]).resolve d <+:
        (posixHost [("/a", false), ("/ab", false)]).dirname
          ((posixHost [("/a", false), ("/ab", false)]).resolve "/ab".toList) := by
  refine ⟨rfl, rfl, ?_⟩
  decide

/-- C2, amended. Nothing is lost by pruning, by the kind each entry has on disk:
when every listed path exists and no listed path or parent path holds a line
terminator, the call completes and every entry it removes from `directories` or
from `files` has an entry left in `directories` whose resolved path is a strict
literal prefix of the removed entry when that is a directory on disk, and a
literal prefix of the removed entry's parent directory when that is a regular
file on disk. The parent path of an entry of `directories` that is a regular
file is taken to be a shorter prefix of the entry, as `path.dirname` gives it. -/
theorem crop_removed_has_kept_anchor (h : Host) (self : Items)
    (hall : ∀ x ∈ self.directories ++ self.files, pathExists h x)
    (hplain : ∀ x ∈ self.directories ++ self.files, plainPath h x)
    (hparent : ∀ d ∈ self.directories, isRegularFile h d = true →
      h.dirname (h.resolve d) <+: h.resolve d ∧
      (h.dirname (h.resolve d)).length < (h.resolve d).length) :
    (cropUnnecessaryItems h self).completion = .ok () ∧
    ∀ x, (x ∈ self.directories ∧ x ∉ (cropUnnecessaryItems h self).self.directories) ∨
        (x ∈ self.files ∧ x ∉ (cropUnnecessaryItems h self).self.files) →
      ∃ d ∈ (cropUnnecessaryItems h self).self.directories,
        (isDirectory h x = true →
          h.resolve d <+: h.resolve x ∧ (h.resolve d).length < (h.resolve x).length) ∧
        (isRegularFile h x = true → h.resolve d <+: h.dirname (h.resolve x)) := by
  have hdirs : ∀ x ∈ self.directories, pathExists h x :=
    fun x hx => hall x (List.mem_append_left _ hx)
  have hfiles : ∀ x ∈ self.files, pathExists h x :=
    fun x hx => hall x (List.mem_append_right _ hx)
  rw [crop_ok h self hdirs (Or.inr hfiles)]
  refine ⟨rfl, ?_⟩
  intro x hx
  have hxmem : x ∈ self.directories ++ self.files := by
    rcases hx with hx | hx
    · exact List.mem_append_left _ hx.1
    · exact List.mem_append_right _ hx.1
  have hxplain := hplain x hxmem
  have hkept : ∃ k ∈ survivors h self.directories self.directories, marks h k x = true := by
    rcases hx with ⟨hxd, hxn⟩ | ⟨hxf, hxn⟩
    · obtain ⟨d, hd, hm⟩ := exists_marks_of_not_mem_survivors h _ _ x hxd hxn
      exact exists_surviving_anchor h self.directories x
        (fun d hd => hplain d (List.mem_append_left _ hd)) hxplain hparent
        (h.resolve d).length d (le_refl _) hd hm
    · exact exists_marks_of_not_mem_survivors h _ _ x hxf hxn
  obtain ⟨k, hk, hm⟩ := hkept
  refine ⟨k, hk, ?_, ?_⟩
  · intro hd
    rw [marks_of_isDirectory h k x hd] at hm
    exact (regexpForFolder_plain _ _ hxplain.1).mp hm
  · intro hf
    rw [marks_of_isRegularFile h k x hf] at hm
    exact (regexpForFile_plain _ _ hxplain.2).mp hm

/-- Witness of C2, amended, on Scenario A. -/
theorem crop_removed_has_kept_anchor_witness :
    (∀ x ∈ scenarioItems.directories ++ scenarioItems.files, pathExists scenarioHost x) ∧
    (∀ x ∈ scenarioItems.directories ++ scenarioItems.files, plainPath scenarioHost x) ∧
    (cropUnnecessaryItems scenarioHost scenarioItems).completion = .ok () ∧
    ∀ x, (x ∈ scenarioItems.directories ∧
          x ∉ (cropUnnecessaryItems scenarioHost scenarioItems).self.directories) ∨
        (x ∈ scenarioItems.files ∧
          x ∉ (cropUnnecessaryItems scenarioHost scenarioItems).self.files) →
      ∃ d ∈ (cropUnnecessaryItems scenarioHost scenarioItems).self.directories,
        (isDirectory scenarioHost x = true →
          scenarioHost.resolve d <+: scenarioHost.resolve x ∧
          (scenarioHost.resolve d).length < (scenarioHost.resolve x).length) ∧
        (isRegularFile scenarioHost x = true →
          scenarioHost.resolve d <+: scenarioHost.dirname (scenarioHost.resolve x)) :=
  ⟨by decide, by decide,
    crop_removed_has_kept_anchor scenarioHost scenarioItems (by decide) (by decide)
      (by decide)⟩

/-- C3. Idempotence: when every listed path exists, `cropUnnecessaryItems()`
completes, a second call on the instance it left completes too, and the second
call leaves `directories` and `files` as the first call left them. -/
theorem crop_idempotent (h : Host) (self : Items)
    (hall : ∀ x ∈ self.directories ++ self.files, pathExists h x) :
    (cropUnnecessaryItems h self).completion = .ok () ∧
    (cropUnnecessaryItems h (cropUnnecessaryItems h self).self).completion = .ok () ∧
    (cropUnnecessaryItems h (cropUnnecessaryItems h self).self).self
      = (cropUnnecessaryItems h self).self := by
  have hdirs : ∀ x ∈ self.directories, pathExists h x :=
    fun x hx => hall x (List.mem_append_left _ hx)
  have hfiles : ∀ x ∈ self.files, pathExists h x :=
    fun x hx => hall x (List.mem_append_right _ hx)
  have h1 := crop_ok h self hdirs (Or.inr hfiles)
  have h2 := crop_ok h (pruned h self)
    (fun x hx => hdirs x ((survivors_sublist h _ _).subset hx))
    (Or.inr (fun x hx => hfiles x ((survivors_sublist h _ _).subset hx)))
  rw [h1]
  refine ⟨rfl, ?_, ?_⟩
  · show (cropUnnecessaryItems h (pruned h self)).completion = .ok ()
    rw [h2]
  · show (cropUnnecessaryItems h (pruned h self)).self = pruned h self
    rw [h2]
    exact pruned_pruned h self

/-- Witness of C3 on Scenario A. -/
theorem crop_idempotent_witness :
    (∀ x ∈ scenarioItems.directories ++ scenarioItems.files, pathExists scenarioHost x) ∧
    (cropUnnecessaryItems scenarioHost scenarioItems).completion = .ok () ∧
    (cropUnnecessaryItems scenarioHost
        (cropUnnecessaryItems scenarioHost scenarioItems).self).completion = .ok () ∧
    (cropUnnecessaryItems scenarioHost (cropUnnecessaryItems scenarioHost scenarioItems).self).self
      = (cropUnnecessaryItems scenarioHost scenarioItems).self :=
  ⟨by decide, crop_idempotent scenarioHost scenarioItems (by decide)⟩

/-- C4. Empty-directories no-op: when `directories` is empty the call completes
without a single `fs.statSync` query and leaves `directories` and `files` as
they were, whatever `files` holds. -/
theorem crop_empty_directories (h : Host) (self : Items) (hempty : self.directories = []) :
    (cropUnnecessaryItems h self).completion = .ok () ∧
    (cropUnnecessaryItems h self).statCalls = [] ∧
    (cropUnnecessaryItems h self).self = self := by
  simp [cropUnnecessaryItems, hempty]

/-- Witness of C4: a file entry that does not exist, under no directory. -/
theorem crop_empty_directories_witness :
    (Items.mk [] ["/missing.txt".toList]).directories = [] ∧
    ¬ pathExists (posixHost []) "/missing.txt".toList ∧
    (cropUnnecessaryItems (posixHost []) (Items.mk [] ["/missing.txt".toList])).completion
      = .ok () ∧
    (cropUnnecessaryItems (posixHost []) (Items.mk [] ["/missing.txt".toList])).statCalls = [] ∧
    (cropUnnecessaryItems (posixHost []) (Items.mk [] ["/missing.txt".toList])).self
      = Items.mk [] ["/missing.txt".toList] :=
  ⟨rfl, by decide,
    crop_empty_directories (posixHost []) (Items.mk [] ["/missing.txt".toList]) rfl⟩

/-- C5. Stable filter: the `directories` and `files` a call leaves are
order-preserving subsequences of the lists before the call, so neither list gets
longer and every path left was there before; this holds for every call, in
particular for every call that completes. -/
theorem crop_stable_filter (h : Host) (self : Items) :
    (cropUnnecessaryItems h self).self.directories.Sublist self.directories ∧
    (cropUnnecessaryItems h self).self.files.Sublist self.files ∧
    (cropUnnecessaryItems h self).self.directories.length ≤ self.directories.length ∧
    (cropUnnecessaryItems h self).self.files.length ≤ self.files.length ∧
    (∀ p ∈ (cropUnnecessaryItems h self).self.directories, p ∈ self.directories) ∧
    (∀ p ∈ (cropUnnecessaryItems h self).self.files, p ∈ self.files) := by
  have key : (cropUnnecessaryItems h self).self.directories.Sublist self.directories ∧
      (cropUnnecessaryItems h self).self.files.Sublist self.files := by
    rcases crop_cases h self with ⟨_, hp⟩ | ⟨e, _, hs, _⟩
    · rw [hp]
      exact ⟨survivors_sublist h _ _, survivors_sublist h _ _⟩
    · rw [hs]
      exact ⟨List.Sublist.refl _, List.Sublist.refl _⟩
  exact ⟨key.1, key.2, key.1.length_le, key.2.length_le,
    fun p hp => key.1.subset hp, fun p hp => key.2.subset hp⟩

/-- C6, the claim as stated fails: with no directory listed, a file entry that
does not exist raises nothing. -/
theorem crop_missing_file_completes :
    (∃ p ∈ (Items.mk [] ["/gone.txt".toList]).directories ++
        (Items.mk [] ["/gone.txt".toList]).files, ¬ pathExists (posixHost []) p) ∧
    (cropUnnecessaryItems (posixHost []) (Items.mk [] ["/gone.txt".toList])).completion
      = .ok () :=
  ⟨⟨"/gone.txt".toList, by decide, by decide⟩, rfl⟩

/-- C6, amended. Failure on a missing path when `directories` is not empty: if
some path of `directories` or `files` does not exist, the call throws the stat
error of a listed path that does not exist and leaves the instance as it was.
The parent path of an entry of `directories` that is a regular file on disk is
taken to be shorter than the entry, as `path.dirname` gives it. -/
theorem crop_fails_on_missing_path (h : Host) (self : Items)
    (hne : self.directories ≠ [])
    (hparent : ∀ d ∈ self.directories, isRegularFile h d = true →
      (h.dirname (h.resolve d)).length < (h.resolve d).length)
    (hmiss : ∃ p ∈ self.directories ++ self.files, ¬ pathExists h p) :
    ∃ e, (cropUnnecessaryItems h self).completion = .error e ∧
      h.statSync e.path = none ∧
      e.path ∈ (self.directories ++ self.files).map h.resolve ∧
      (cropUnnecessaryItems h self).self = self := by
  by_cases hdirs : ∀ x ∈ self.directories, pathExists h x
  · have hfiles : ∃ x ∈ self.files, ¬ pathExists h x := by
      obtain ⟨p, hp, hnp⟩ := hmiss
      rcases List.mem_append.mp hp with hp' | hp'
      · exact absurd (hdirs p hp') hnp
      · exact ⟨p, hp', hnp⟩
    obtain ⟨e, he, hnone, hmem⟩ :=
      crop_error_files h self hdirs (survivors_ne_nil h _ hne hparent) hfiles
    refine ⟨e, by rw [he], hnone, ?_, by rw [he]⟩
    rw [List.map_append]
    exact List.mem_append_right _ hmem
  · push_neg at hdirs
    obtain ⟨e, he, hnone, hmem⟩ := crop_error_directories h self hdirs
    refine ⟨e, by rw [he], hnone, ?_, by rw [he]⟩
    rw [List.map_append]
    exact List.mem_append_left _ hmem

/-- Witness of C6, amended: one directory and a file entry that does not exist. -/
theorem crop_fails_on_missing_path_witness :
    (Items.mk ["/a".toList] ["/a/gone.txt".toList]).directories ≠ [] ∧
    (∃ p ∈ (Items.mk ["/a".toList] ["/a/gone.txt".toList]).directories ++
        (Items.mk ["/a".toList] ["/a/gone.txt".toList]).files,
      ¬ pathExists (posixHost [("/a", false)]) p) ∧
    ∃ e, (cropUnnecessaryItems (posixHost [("/a", false)])
          (Items.mk ["/a".toList] ["/a/gone.txt".toList])).completion = .error e ∧
      (posixHost [("/a", false)]).statSync e.path = none ∧
      e.path ∈ ((Items.mk ["/a".toList] ["/a/gone.txt".toList]).directories ++
        (Items.mk ["/a".toList] ["/a/gone.txt".toList]).files).map
          (posixHost [("/a", false)]).resolve ∧
      (cropUnnecessaryItems (posixHost [("/a", false)])
          (Items.mk ["/a".toList] ["/a/gone.txt".toList])).self
        = Items.mk ["/a".toList] ["/a/gone.txt".toList] :=
  ⟨by decide, ⟨"/a/gone.txt".toList, by decide, by decide⟩,
    crop_fails_on_missing_path (posixHost [("/a", false)])
      (Items.mk ["/a".toList] ["/a/gone.txt".toList]) (by decide) (by decide)
      ⟨"/a/gone.txt".toList, by decide, by decide⟩⟩

/-- C7. Scenario A: on every host on which the eight paths are already resolved,
the four entries of `directories` are directories on disk, the four entries of
`files` are regular files and `path.dirname` gives their parents, the call
completes and leaves `directories = [/d/js/scripts, /d/styles, /t]` and
`files = [/d/manifest.json, /t.txt]`; `/t.txt` stays although `/t` begins it. -/
theorem crop_scenario_A (h : Host)
    (hres : ∀ p ∈ scenarioItems.directories ++ scenarioItems.files, h.resolve p = p)
    (hdir : ∀ p ∈ scenarioItems.directories, h.statSync p = some { isFile := false })
    (hfile : ∀ p ∈ scenarioItems.files, h.statSync p = some { isFile := true })
    (hparent : h.dirname "/d/styles/popup.css".toList = "/d/styles".toList ∧
      h.dirname "/d/styles/popup.css.map".toList = "/d/styles".toList ∧
      h.dirname "/d/manifest.json".toList = "/d".toList ∧
      h.dirname "/t.txt".toList = "/".toList) :
    (cropUnnecessaryItems h scenarioItems).completion = .ok () ∧
    (cropUnnecessaryItems h scenarioItems).self
      = { directories := ["/d/js/scripts".toList, "/d/styles".toList, "/t".toList],
          files := ["/d/manifest.json".toList, "/t.txt".toList] } := by
  have r1 := hres "/d/styles/css".toList (by decide)
  have r2 := hres "/d/js/scripts".toList (by decide)
  have r3 := hres "/d/styles".toList (by decide)
  have r4 := hres "/t".toList (by decide)
  have r5 := hres "/d/styles/popup.css".toList (by decide)
  have r6 := hres "/d/styles/popup.css.map".toList (by decide)
  have r7 := hres "/d/manifest.json".toList (by decide)
  have r8 := hres "/t.txt".toList (by decide)
  have s1 := hdir "/d/styles/css".toList (by decide)
  have s2 := hdir "/d/js/scripts".toList (by decide)
  have s3 := hdir "/d/styles".toList (by decide)
  have s4 := hdir "/t".toList (by decide)
  have s5 := hfile "/d/styles/popup.css".toList (by decide)
  have s6 := hfile "/d/styles/popup.css.map".toList (by decide)
  have s7 := hfile "/d/manifest.json".toList (by decide)
  have s8 := hfile "/t.txt".toList (by decide)
  obtain ⟨d5, d6, d7, d8⟩ := hparent
  have hex : ∀ x ∈ scenarioItems.directories ++ scenarioItems.files, pathExists h x := by
    intro x hx
    have hx' : x ∈ scenarioItems.directories ∨ x ∈ scenarioItems.files := List.mem_append.mp hx
    unfold pathExists
    rw [hres x hx]
    rcases hx' with hx' | hx'
    · rw [hdir x hx']; rfl
    · rw [hfile x hx']; rfl
  rw [crop_ok h scenarioItems (fun x hx => hex x (List.mem_append_left _ hx))
    (Or.inr (fun x hx => hex x (List.mem_append_right _ hx)))]
  refine ⟨rfl, ?_⟩
  simp only [pruned, survivors, scenarioItems, List.filter, List.any, marks, marksResolved,
    r1, r2, r3, r4, r5, r6, r7, r8, s1, s2, s3, s4, s5, s6, s7, s8, d5, d6, d7, d8]
  rfl

/-- Witness of C7: the POSIX host of Scenario A. -/
theorem crop_scenario_A_witness :
    (∀ p ∈ scenarioItems.directories ++ scenarioItems.files, scenarioHost.resolve p = p) ∧
    (∀ p ∈ scenarioItems.directories, scenarioHost.statSync p = some { isFile := false }) ∧
    (∀ p ∈ scenarioItems.files, scenarioHost.statSync p = some { isFile := true }) ∧
    (scenarioHost.dirname "/d/styles/popup.css".toList = "/d/styles".toList ∧
      scenarioHost.dirname "/d/styles/popup.css.map".toList = "/d/styles".toList ∧
      scenarioHost.dirname "/d/manifest.json".toList = "/d".toList ∧
      scenarioHost.dirname "/t.txt".toList = "/".toList) ∧
    (cropUnnecessaryItems scenarioHost scenarioItems).completion = .ok () ∧
    (cropUnnecessaryItems scenarioHost scenarioItems).self
      = { directories := ["/d/js/scripts".toList, "/d/styles".toList, "/t".toList],
          files := ["/d/manifest.json".toList, "/t.txt".toList] } :=
  ⟨fun _ _ => rfl, by decide, by decide, by decide,
    crop_scenario_A scenarioHost (fun _ _ => rfl) (by decide) (by decide) (by decide)⟩

/-- C8. `trimRoot(root)` is an elementwise transform: both lists keep their
length, and the i-th entry afterwards is the old i-th entry without its leading
`root` when the old entry starts with the string `root`, and the old i-th entry
otherwise; `trimRoot('/d')` turns `[/d/js/scripts]` into `[/js/scripts]`. -/
theorem trimRoot_elementwise (root : JSString) (self : Items) :
    (trimRoot root self).directories.length = self.directories.length ∧
    (trimRoot root self).files.length = self.files.length ∧
    (∀ i : Nat, (trimRoot root self).directories[i]?
      = self.directories[i]?.map (fun v => if root <+: v then v.drop root.length else v)) ∧
    (∀ i : Nat, (trimRoot root self).files[i]?
      = self.files[i]?.map (fun v => if root <+: v then v.drop root.length else v)) ∧
    (∀ v, root <+: v → root ++ trimRoot.method root v = v) ∧
    trimRoot "/d".toList { directories := ["/d/js/scripts".toList], files := [] }
      = { directories := ["/js/scripts".toList], files := [] } := by
  have hfun : trimRoot.method root
      = fun v => if root <+: v then v.drop root.length else v :=
    funext (trimRoot_method_eq root)
  refine ⟨by simp [trimRoot], by simp [trimRoot], ?_, ?_, ?_, by decide⟩
  · intro i
    simp only [trimRoot, List.getElem?_map, hfun]
  · intro i
    simp only [trimRoot, List.getElem?_map, hfun]
  · intro v hv
    rw [trimRoot_method_eq, if_pos hv]
    obtain ⟨rest, rfl⟩ := hv
    simp

/-- C9, at the failing input: `/a` and `/b\n/a/c` are both directories on disk
and neither resolved path is a strict literal prefix of the other, yet the call
removes `/b\n/a/c`: under the `m` flag `^` also matches after the line feed. -/
theorem crop_removes_unrelated_directory :
    (∀ d ∈ ["/a".toList, "/b\n/a/c".toList], isDirectory lineFeedHost d = true) ∧
    (∀ a ∈ ["/a".toList, "/b\n/a/c".toList], ∀ b ∈ ["/a".toList, "/b\n/a/c".toList],
      isStrictPrefix (lineFeedHost.resolve a) (lineFeedHost.resolve b) = false) ∧
    (cropUnnecessaryItems lineFeedHost
        (Items.mk ["/a".toList, "/b\n/a/c".toList] [])).completion = .ok () ∧
    (cropUnnecessaryItems lineFeedHost (Items.mk ["/a".toList, "/b\n/a/c".toList] [])).self
      = Items.mk ["/a".toList] [] := by
  refine ⟨by decide, by decide, rfl, rfl⟩

/-- C10. Atomicity on failure: when the call throws a stat error, in pass 1 or
in pass 2, `directories` and `files` are the lists they were before the call. -/
theorem crop_error_atomic (h : Host) (self : Items) (e : StatError)
    (herr : (cropUnnecessaryItems h self).completion = .error e) :
    (cropUnnecessaryItems h self).self = self := by
  rcases crop_cases h self with ⟨hok, _⟩ | ⟨_, _, hs, _⟩
  · rw [hok] at herr
    cases herr
  · exact hs

/-- Witness of C10: pass 1 passes and pass 2 throws on a missing file. -/
theorem crop_error_atomic_witness :
    (cropUnnecessaryItems (posixHost [("/a", false), ("/b.txt", true)])
        (Items.mk ["/a".toList] ["/b.txt".toList, "/a/missing.txt".toList])).completion
      = .error { path := "/a/missing.txt".toList } ∧
    (cropUnnecessaryItems (posixHost [("/a", false), ("/b.txt", true)])
        (Items.mk ["/a".toList] ["/b.txt".toList, "/a/missing.txt".toList])).self
      = Items.mk ["/a".toList] ["/b.txt".toList, "/a/missing.txt".toList] :=
  ⟨rfl, crop_error_atomic (posixHost [("/a", false), ("/b.txt", true)])
    (Items.mk ["/a".toList] ["/b.txt".toList, "/a/missing.txt".toList])
    { path := "/a/missing.txt".toList } rfl⟩

/-- C11. Accessors: a new `Items` has empty `directories` and empty `files`;
setting `directories` to any list makes its getter return that list and leaves
`files` as it was, and setting `files` to any list makes its getter return that
list and leaves `directories` as it was. The setters take every value. -/
theorem items_accessors :
    Items.new.get_directories = [] ∧ Items.new.get_files = [] ∧
    (∀ (self : Items) (v : List JSString),
      (self.set_directories v).get_directories = v ∧
      (self.set_directories v).get_files = self.get_files) ∧
    (∀ (self : Items) (v : List JSString),
      (self.set_files v).get_files = v ∧
      (self.set_files v).get_directories = self.get_directories) :=
  ⟨rfl, rfl, fun _ _ => ⟨rfl, rfl⟩, fun _ _ => ⟨rfl, rfl⟩⟩

/-- C12. No entry is marked by itself: for a path `p` that exists, a directory
or a regular file, the scan with `p` as the only anchor and the only candidate
adds no index, and an entry `p` that a completed call removes from
`directories` was marked by an anchor of the list with another resolved path.
The parent path of a regular file is taken to be shorter than the file's path,
as `path.dirname` gives it. -/
theorem no_entry_marks_itself (h : Host) (p : JSString) (hex : pathExists h p)
    (hparent : isRegularFile h p = true →
      (h.dirname (h.resolve p)).length < (h.resolve p).length) :
    (∀ indexes calls,
      (addToUnnecessaryIndexes h [p] [p] indexes calls).indexes = .ok indexes) ∧
    (∀ self : Items, (cropUnnecessaryItems h self).completion = .ok () →
      p ∈ self.directories → p ∉ (cropUnnecessaryItems h self).self.directories →
      ∃ d ∈ self.directories, d ≠ p ∧ h.resolve d ≠ h.resolve p ∧ marks h d p = true) := by
  have hself : ∀ d, h.resolve d = h.resolve p → marks h d p = false := by
    intro d hd
    cases hm : marks h d p with
    | false => rfl
    | true =>
      have := marks_length_lt h d p hparent hm
      rw [hd] at this
      omega
  constructor
  · intro indexes calls
    have hm := hself p rfl
    unfold marks marksResolved at hm
    unfold pathExists at hex
    obtain ⟨stat, hstat⟩ := Option.isSome_iff_exists.mp hex
    rw [hstat] at hm
    simp only at hm
    simp only [addToUnnecessaryIndexes, scanSecondGroup, hstat]
    by_cases hf : stat.isFile = true
    · simp only [hf, if_true] at hm ⊢
      simp [hm]
    · simp only [hf] at hm ⊢
      simp at hm
      simp [hm]
  · intro self hok hp hnp
    rcases crop_cases h self with ⟨_, hpr⟩ | ⟨e, herr, _, _⟩
    · rw [hpr] at hnp
      obtain ⟨d, hd, hm⟩ := exists_marks_of_not_mem_survivors h _ _ p hp hnp
      have hne : h.resolve d ≠ h.resolve p := by
        intro heq
        rw [hself d heq] at hm
        cases hm
      exact ⟨d, hd, fun hdp => hne (by rw [hdp]), hne, hm⟩
    · rw [hok] at herr
      cases herr

/-- Witness of C12: the directory `/data/logs` next to `/data/log`. -/
theorem no_entry_marks_itself_witness :
    pathExists siblingHost "/data/logs".toList ∧
    (∀ indexes calls,
      (addToUnnecessaryIndexes siblingHost ["/data/logs".toList] ["/data/logs".toList]
        indexes calls).indexes = .ok indexes) ∧
    (∀ self : Items, (cropUnnecessaryItems siblingHost self).completion = .ok () →
      "/data/logs".toList ∈ self.directories →
      "/data/logs".toList ∉ (cropUnnecessaryItems siblingHost self).self.directories →
      ∃ d ∈ self.directories, d ≠ "/data/logs".toList ∧
        siblingHost.resolve d ≠ siblingHost.resolve "/data/logs".toList ∧
        marks siblingHost d "/data/logs".toList = true) :=
  ⟨by decide, no_entry_marks_itself siblingHost "/data/logs".toList (by decide) (by decide)⟩

/-- C13. Literal-prefix quirk: on every host on which `/data/log` and
`/data/logs` are resolved paths of directories, the call on
`directories = [/data/log, /data/logs]` completes and leaves
`directories = [/data/log]`, although `/data/log` only begins the string
`/data/logs` and is not its ancestor. -/
theorem crop_literal_quirk (h : Host)
    (hres : ∀ p ∈ ["/data/log".toList, "/data/logs".toList], h.resolve p = p)
    (hdir : ∀ p ∈ ["/data/log".toList, "/data/logs".toList],
      h.statSync p = some { isFile := false }) :
    (cropUnnecessaryItems h
        { directories := ["/data/log".toList, "/data/logs".toList], files := [] }).completion
      = .ok () ∧
    (cropUnnecessaryItems h
        { directories := ["/data/log".toList, "/data/logs".toList], files := [] }).self
      = { directories := ["/data/log".toList], files := [] } ∧
    isStrictPrefix "/data/log".toList "/data/logs".toList = true ∧
    isStrictAncestor "/data/log".toList "/data/logs".toList = false := by
  have r1 := hres "/data/log".toList (by decide)
  have r2 := hres "/data/logs".toList (by decide)
  have s1 := hdir "/data/log".toList (by decide)
  have s2 := hdir "/data/logs".toList (by decide)
  have hex : ∀ x ∈ ["/data/log".toList, "/data/logs".toList], pathExists h x := by
    intro x hx
    unfold pathExists
    rw [hres x hx, hdir x hx]
    rfl
  rw [crop_ok h _ hex (Or.inr (fun x hx => by cases hx))]
  refine ⟨rfl, ?_, by decide, by decide⟩
  simp only [pruned, survivors, List.filter, List.any, marks, marksResolved,
    r1, r2, s1, s2]
  rfl

/-- Witness of C13: the POSIX host with the two sibling directories. -/
theorem crop_literal_quirk_witness :
    (∀ p ∈ ["/data/log".toList, "/data/logs".toList], siblingHost.resolve p = p) ∧
    (∀ p ∈ ["/data/log".toList, "/data/logs".toList],
      siblingHost.statSync p = some { isFile := false }) ∧
    (cropUnnecessaryItems siblingHost
        { directories := ["/data/log".toList, "/data/logs".toList], files := [] }).completion
      = .ok () ∧
    (cropUnnecessaryItems siblingHost
        { directories := ["/data/log".toList, "/data/logs".toList], files := [] }).self
      = { directories := ["/data/log".toList], files := [] } ∧
    isStrictPrefix "/data/log".toList "/data/logs".toList = true ∧
    isStrictAncestor "/data/log".toList "/data/logs".toList = false :=
  ⟨fun _ _ => rfl, by decide, crop_literal_quirk siblingHost (fun _ _ => rfl) (by decide)⟩

/-- C14, at the failing inputs: for the anchor `/a`, the exact-prefix pattern
matches `/x\n/a` although that string does not begin with `/a` (under the `m`
flag `^` matches after the line feed), the strict-descendant pattern matches
`/x\n/ab` in the same way, and the strict-descendant pattern does not match
`/a\nb` although that string is `/a` followed by two more characters (`.` does
not match the line feed). -/
theorem anchor_patterns_on_line_terminators :
    regexpForFile (lineFeedHost.resolve "/a".toList) "/x\n/a".toList = true ∧
    ¬ lineFeedHost.resolve "/a".toList <+: "/x\n/a".toList ∧
    regexpForFolder (lineFeedHost.resolve "/a".toList) "/x\n/ab".toList = true ∧
    ¬ lineFeedHost.resolve "/a".toList <+: "/x\n/ab".toList ∧
    regexpForFolder (lineFeedHost.resolve "/a".toList) "/a\nb".toList = false ∧
    isStrictPrefix (lineFeedHost.resolve "/a".toList) "/a\nb".toList = true := by
  refine ⟨by decide, by decide, by decide, by decide, by decide, by decide⟩

/-- C15, the claim as stated fails: two copies of the existing directory `/a`
both stay in `directories`. -/
theorem crop_keeps_both_copies :
    isDirectory (posixHost [("/a", false)]) "/a".toList = true ∧
    (cropUnnecessaryItems (posixHost [("/a", false)])
        (Items.mk ["/a".toList, "/a".toList] [])).completion = .ok () ∧
    (cropUnnecessaryItems (posixHost [("/a", false)])
        (Items.mk ["/a".toList, "/a".toList] [])).self.directories
      = ["/a".toList, "/a".toList] := by
  refine ⟨rfl, rfl, rfl⟩

/-- C15, amended. No de-duplication: when `directories` holds the path `x` of an
existing directory more than once, the copies share one fate. After the call
`x` occurs in `directories` as often as before, or not at all, and then an
entry with another resolved path marked it; the copies never mark each other. -/
theorem crop_copies_share_fate (h : Host) (self : Items) (x : JSString)
    (hdup : 2 ≤ self.directories.count x) (hdir : isDirectory h x = true) :
    marks h x x = false ∧
    ((cropUnnecessaryItems h self).self.directories.count x = self.directories.count x ∨
      ((cropUnnecessaryItems h self).self.directories.count x = 0 ∧
        ∃ d ∈ self.directories, h.resolve d ≠ h.resolve x ∧ marks h d x = true)) := by
  have hself : ∀ d, h.resolve d = h.resolve x → marks h d x = false := by
    intro d hd
    cases hm : marks h d x with
    | false => rfl
    | true =>
      rw [marks_of_isDirectory h d x hdir] at hm
      have := regexpForFolder_length _ _ hm
      rw [hd] at this
      omega
  refine ⟨hself x rfl, ?_⟩
  have hx : x ∈ self.directories := List.count_pos_iff.mp (by omega)
  rcases crop_cases h self with ⟨_, hpr⟩ | ⟨e, _, hs, _⟩
  · rw [hpr]
    by_cases hmem : x ∈ survivors h self.directories self.directories
    · left
      have hkeep := ((mem_survivors h _ _ x).mp hmem).2
      show (survivors h self.directories self.directories).count x = _
      unfold survivors
      rw [List.count_filter]
      simp only [Bool.not_eq_true', List.any_eq_false]
      intro d hd
      simp [hkeep d hd]
    · right
      refine ⟨List.count_eq_zero.mpr hmem, ?_⟩
      obtain ⟨d, hd, hm⟩ := exists_marks_of_not_mem_survivors h _ _ x hx hmem
      refine ⟨d, hd, ?_, hm⟩
      intro heq
      rw [hself d heq] at hm
      cases hm
  · left
    rw [hs]

/-- Witness of C15, amended: the two copies of `/a`. -/
theorem crop_copies_share_fate_witness :
    2 ≤ (Items.mk ["/a".toList, "/a".toList] []).directories.count "/a".toList ∧
    marks (posixHost [("/a", false)]) "/a".toList "/a".toList = false ∧
    ((cropUnnecessaryItems (posixHost [("/a", false)])
          (Items.mk ["/a".toList, "/a".toList] [])).self.directories.count "/a".toList
        = (Items.mk ["/a".toList, "/a".toList] []).directories.count "/a".toList ∨
      ((cropUnnecessaryItems (posixHost [("/a", false)])
          (Items.mk ["/a".toList, "/a".toList] [])).self.directories.count "/a".toList = 0 ∧
        ∃ d ∈ (Items.mk ["/a".toList, "/a".toList] []).directories,
          (posixHost [("/a", false)]).resolve d ≠ (posixHost [("/a", false)]).resolve "/a".toList ∧
          marks (posixHost [("/a", false)]) d "/a".toList = true)) :=
  ⟨by decide, crop_copies_share_fate (posixHost [("/a", false)])
    (Items.mk ["/a".toList, "/a".toList] []) "/a".toList (by decide) (by decide)⟩

/-- C16. At least one directory always survives: when `directories` is not
empty and its paths all exist, pass 1 leaves a non-empty list of anchors, the
call leaves `directories` non-empty, and pass 2 passes to `fs.statSync` every
file entry whose predecessors in `files` exist; when all of `files` exist the
call completes and has passed every file entry to `fs.statSync`. The parent path
of an entry of `directories` that is a regular file on disk is taken to be
shorter than the entry, as `path.dirname` gives it. -/
theorem crop_keeps_a_directory (h : Host) (self : Items)
    (hne : self.directories ≠ [])
    (hdirs : ∀ d ∈ self.directories, pathExists h d)
    (hparent : ∀ d ∈ self.directories, isRegularFile h d = true →
      (h.dirname (h.resolve d)).length < (h.resolve d).length) :
    (∃ idx calls, addToUnnecessaryIndexes h self.directories self.directories [] []
        = { indexes := .ok idx, statCalls := calls } ∧
      addToRightGroup [] self.directories idx ≠ []) ∧
    (cropUnnecessaryItems h self).self.directories ≠ [] ∧
    (∀ pre f post, self.files = pre ++ f :: post → (∀ g ∈ pre, pathExists h g) →
      h.resolve f ∈ (cropUnnecessaryItems h self).statCalls) ∧
    ((∀ f ∈ self.files, pathExists h f) →
      (cropUnnecessaryItems h self).completion = .ok () ∧
      ∀ f ∈ self.files, h.resolve f ∈ (cropUnnecessaryItems h self).statCalls) := by
  have hsurv := survivors_ne_nil h self.directories hne hparent
  have hcalls : ∀ pre f post, self.files = pre ++ f :: post → (∀ g ∈ pre, pathExists h g) →
      h.resolve f ∈ (cropUnnecessaryItems h self).statCalls := by
    intro pre f post hsplit hpre
    rw [crop_statCalls_eq h self hne hdirs, hsplit]
    exact addToUnnecessaryIndexes_statCalls_mem h _ pre post f [] _ hsurv hpre
  refine ⟨?_, ?_, hcalls, ?_⟩
  · obtain ⟨idx, heq, hright⟩ := pass_eq h self.directories self.directories [] (Or.inr hdirs)
    exact ⟨idx, _, heq, by rw [hright]; exact hsurv⟩
  · rcases crop_cases h self with ⟨_, hpr⟩ | ⟨e, _, hs, _⟩
    · rw [hpr]; exact hsurv
    · rw [hs]; exact hne
  · intro hfiles
    refine ⟨by rw [crop_ok h self hdirs (Or.inr hfiles)], ?_⟩
    intro f hf
    obtain ⟨pre, post, hsplit⟩ := List.append_of_mem hf
    exact hcalls pre f post hsplit
      (fun g hg => hfiles g (by rw [hsplit]; exact List.mem_append_left _ hg))

/-- Witness of C16 on Scenario A. -/
theorem crop_keeps_a_directory_witness :
    scenarioItems.directories ≠ [] ∧
    (∀ d ∈ scenarioItems.directories, pathExists scenarioHost d) ∧
    (∃ idx calls,
      addToUnnecessaryIndexes scenarioHost scenarioItems.directories
          scenarioItems.directories [] []
        = { indexes := .ok idx, statCalls := calls } ∧
      addToRightGroup [] scenarioItems.directories idx ≠ []) ∧
    (cropUnnecessaryItems scenarioHost scenarioItems).self.directories ≠ [] ∧
    (∀ pre f post, scenarioItems.files = pre ++ f :: post →
      (∀ g ∈ pre, pathExists scenarioHost g) →
      scenarioHost.resolve f ∈ (cropUnnecessaryItems scenarioHost scenarioItems).statCalls) ∧
    ((∀ f ∈ scenarioItems.files, pathExists scenarioHost f) →
      (cropUnnecessaryItems scenarioHost scenarioItems).completion = .ok () ∧
      ∀ f ∈ scenarioItems.files,
        scenarioHost.resolve f ∈ (cropUnnecessaryItems scenarioHost scenarioItems).statCalls) :=
  ⟨by decide, by decide,
    crop_keeps_a_directory scenarioHost scenarioItems (by decide) (by decide) (by decide)⟩

/-- C17, at the failing input: `/` and `/\nfoobar` are directories on disk and
`/\nfoo` is a regular file, all three exist. On `directories = [/, /\nfoo]`,
`files = [/\nfoobar]` pass 1 keeps only `/`; the scan of `files` with that
anchor marks no index, the scan with all of `directories` as anchors marks
index 0, and the call keeps `/\nfoobar` in `files` next to its strict ancestor
`/` in `directories`: the `(.+)` of `regexpForFolder` does not match the line
feed that follows the anchor `/`. -/
theorem crop_anchor_choice_matters :
    (∀ x ∈ ["/".toList, "/\nfoo".toList] ++ ["/\nfoobar".toList], pathExists mixedHost x) ∧
    isDirectory mixedHost "/".toList = true ∧
    isRegularFile mixedHost "/\nfoo".toList = true ∧
    isDirectory mixedHost "/\nfoobar".toList = true ∧
    (cropUnnecessaryItems mixedHost
        (Items.mk ["/".toList, "/\nfoo".toList] ["/\nfoobar".toList])).completion = .ok () ∧
    (cropUnnecessaryItems mixedHost
        (Items.mk ["/".toList, "/\nfoo".toList] ["/\nfoobar".toList])).self
      = Items.mk ["/".toList] ["/\nfoobar".toList] ∧
    (addToUnnecessaryIndexes mixedHost ["/".toList] ["/\nfoobar".toList] [] []).indexes
      = .ok [] ∧
    (addToUnnecessaryIndexes mixedHost ["/".toList, "/\nfoo".toList]
        ["/\nfoobar".toList] [] []).indexes = .ok [0] ∧
    addToRightGroup [] ["/\nfoobar".toList] [0] = [] ∧
    regexpForFolder (mixedHost.resolve "/".toList) (mixedHost.resolve "/\nfoobar".toList)
      = false ∧
    isStrictAncestor (mixedHost.resolve "/".toList) (mixedHost.resolve "/\nfoobar".toList)
      = true := by
  refine ⟨by decide, rfl, rfl, rfl, rfl, rfl, rfl, rfl, rfl, by decide, by decide⟩

/-- C18. Pass independence: when all listed paths exist, the `files` the call
leaves are the entries of `files` that no directory the call leaves marks, a
test of the entry's own path against those directories only; so two inputs with
the same `files` whose calls leave the same `directories` leave the same
`files`, whatever pass 1 marked. The `directories` the call leaves are the same
for every list of existing `files`. -/
theorem crop_passes_independent (h : Host) (self : Items)
    (hall : ∀ x ∈ self.directories ++ self.files, pathExists h x) :
    (cropUnnecessaryItems h self).self.files
      = self.files.filter (fun f =>
          !(cropUnnecessaryItems h self).self.directories.any (fun d => marks h d f)) ∧
    (∀ other : Items, other.files = self.files →
      (∀ x ∈ other.directories, pathExists h x) →
      (cropUnnecessaryItems h other).self.directories
        = (cropUnnecessaryItems h self).self.directories →
      (cropUnnecessaryItems h other).self.files = (cropUnnecessaryItems h self).self.files) ∧
    (∀ files : List JSString, (∀ x ∈ files, pathExists h x) →
      (cropUnnecessaryItems h { directories := self.directories, files := files }).self.directories
        = (cropUnnecessaryItems h self).self.directories) := by
  have hdirs : ∀ x ∈ self.directories, pathExists h x :=
    fun x hx => hall x (List.mem_append_left _ hx)
  have hfiles : ∀ x ∈ self.files, pathExists h x :=
    fun x hx => hall x (List.mem_append_right _ hx)
  have hself := crop_ok h self hdirs (Or.inr hfiles)
  refine ⟨?_, ?_, ?_⟩
  · rw [hself]; rfl
  · intro other hof hod hsame
    have hother := crop_ok h other hod (Or.inr (by rw [hof]; exact hfiles))
    rw [hother, hself] at hsame
    rw [hother, hself]
    have hsame' : survivors h other.directories other.directories
        = survivors h self.directories self.directories := hsame
    show survivors h (survivors h other.directories other.directories) other.files
      = survivors h (survivors h self.directories self.directories) self.files
    rw [hsame', hof]
  · intro files hf
    rw [crop_ok h { directories := self.directories, files := files } hdirs (Or.inr hf), hself]
    rfl

/-- Witness of C18 on Scenario A. -/
theorem crop_passes_independent_witness :
    (∀ x ∈ scenarioItems.directories ++ scenarioItems.files, pathExists scenarioHost x) ∧
    (cropUnnecessaryItems scenarioHost scenarioItems).self.files
      = scenarioItems.files.filter (fun f =>
          !(cropUnnecessaryItems scenarioHost scenarioItems).self.directories.any
            (fun d => marks scenarioHost d f)) ∧
    (∀ other : Items, other.files = scenarioItems.files →
      (∀ x ∈ other.directories, pathExists scenarioHost x) →
      (cropUnnecessaryItems scenarioHost other).self.directories
        = (cropUnnecessaryItems scenarioHost scenarioItems).self.directories →
      (cropUnnecessaryItems scenarioHost other).self.files
        = (cropUnnecessaryItems scenarioHost scenarioItems).self.files) ∧
    (∀ files : List JSString, (∀ x ∈ files, pathExists scenarioHost x) →
      (cropUnnecessaryItems scenarioHost
          { directories := scenarioItems.directories, files := files }).self.directories
        = (cropUnnecessaryItems scenarioHost scenarioItems).self.directories) :=
  ⟨by decide, crop_passes_independent scenarioHost scenarioItems (by decide)⟩

end RemoveFiles
